import Mathlib

/-!
Verification of the CoreCLR simple console host
(`src/coreclr/hosts/coreconsole/coreconsole.cpp`).

Wide strings (`wchar_t*`) are modelled as `List Char`; the TPA string
buffer is modelled by the flat character list obtained from the appended
entries, with the un-allocated (`m_buffer == nullptr`) state of
`StringBuffer` represented by `Option`.  HRESULTs are modelled as `Int`
(`FAILED hr ↔ hr < 0`), `DWORD`s as `Nat` below `2^32`.
-/

namespace CoreConsole

/-- Wide strings are modelled as lists of characters. -/
abbrev Str := List Char

/-- The ASCII upper-to-lower case table of the C locale. -/
def lowerTable : List (Char × Char) :=
  [('A','a'), ('B','b'), ('C','c'), ('D','d'), ('E','e'), ('F','f'), ('G','g'),
   ('H','h'), ('I','i'), ('J','j'), ('K','k'), ('L','l'), ('M','m'), ('N','n'),
   ('O','o'), ('P','p'), ('Q','q'), ('R','r'), ('S','s'), ('T','t'), ('U','u'),
   ('V','v'), ('W','w'), ('X','x'), ('Y','y'), ('Z','z')]

/-- `towlower` in the C locale: ASCII upper-case letters map to lower case,
every other character is unchanged.  Used by `AddFilesFromDirectoryToTPAList`
for its case-insensitive comparisons. -/
def towlower (c : Char) : Char :=
  match lowerTable.find? (fun p => p.1 = c) with
  | some p => p.2
  | none => c

/-- The in-place `towlower` loop applied to a whole file name. -/
def lowerStr (s : Str) : Str := s.map towlower

/-- `HostEnvironment::RemoveExtensionAndNi`, second phase: the check
`len > 3 && fileName[len-1]=='i' && fileName[len-2]=='n' && fileName[len-3]=='.'`
followed by truncation at `len - 3`, phrased on the reversed name. -/
def stripNiOfRev (r : Str) : Str :=
  match r with
  | a :: b :: c :: d :: es => if a = 'i' ∧ b = 'n' ∧ c = '.' then d :: es else r
  | _ => r

/-- `HostEnvironment::RemoveExtensionAndNi`: truncate at the last `'.'`
(`wcsrchr`) if one exists, then strip a trailing `".ni"` segment when the
remaining name is longer than 3 characters. -/
def RemoveExtensionAndNi (fileName : Str) : Str :=
  match fileName.reverse.dropWhile (fun c => c ≠ '.') with
  | [] => fileName
  | _ :: rest => (stripNiOfRev rest).reverse

/-- The fixed extension-priority array `rgTPAExtensions` of
`HostEnvironment::GetTpaList` (probe `*.ni.dll` first, then `*.dll`,
then `*.ni.exe`, then `*.exe`). -/
def rgTPAExtensions : List Str :=
  ["*.ni.dll".data, "*.dll".data, "*.ni.exe".data, "*.exe".data]

/-- One path entry of the trust list: the directory path passed to
`AddFilesFromDirectoryToTPAList` and the (lower-cased) file name appended
after it. -/
structure Entry where
  dir : Str
  name : Str
deriving DecidableEq

/-- The characters an entry contributes to the TPA string buffer:
`Append(assemblyPath, ...)` followed by `Append(W(";"), 1)` where
`assemblyPath` is the directory path with the file name copied after it. -/
def entryStr (e : Entry) : Str := e.dir ++ e.name ++ [';']

/-- The full contents of the TPA `StringBuffer` after a sequence of entries
has been appended. -/
def flatTpa (es : List Entry) : Str := (es.map entryStr).flatten

/-- `m_tpaList.CStr()`: `none` models the null pointer of a `StringBuffer`
to which nothing was ever appended. -/
def tpaCStr (es : List Entry) : Option Str :=
  if es = [] then none else some (flatTpa es)

/-- `HostEnvironment::TPAListContainsFile`: a null list contains nothing;
otherwise search the flat buffer (`wcsstr`) for
`"\" + fileNameWithoutExtension + (rgTPAExtensions[i]+1) + ";"` for each
extension pattern. -/
def TPAListContainsFile (tpa : Option Str) (fileNameWithoutExtension : Str)
    (rgExts : List Str) : Bool :=
  match tpa with
  | none => false
  | some s => rgExts.any fun ext =>
      decide (('\\' :: (fileNameWithoutExtension ++ ext.drop 1 ++ [';'])) <:+: s)

/-- One `WIN32_FIND_DATA` record: the file name reported by
`FindFirstFile`/`FindNextFile` and its `FILE_ATTRIBUTE_DIRECTORY` bit. -/
structure DirEntry where
  cFileName : Str
  isDirectory : Bool
deriving DecidableEq

/-- `FindFirstFile(targetPath + pattern, ...)` name matching: the pattern is
one of the `"*.X"` members of `rgTPAExtensions`, and it matches the names
whose lower-cased form ends with the pattern's suffix (file-system matching
is case-insensitive). -/
def matchesPattern (pattern : Str) (name : Str) : Bool :=
  (pattern.drop 1).isSuffixOf (lowerStr name)

/-- The body of the `do { ... } while (FindNextFile ...)` loop of
`AddFilesFromDirectoryToTPAList` for a single found file: skip directories;
lower-case the name, strip extension and `.ni`, skip the file when
`TPAListContainsFile` holds, otherwise append `targetPath + fileName` and
`";"` to the list. -/
def processFile (rgExts : List Str) (targetPath : Str)
    (tpa : List Entry) (f : DirEntry) : List Entry :=
  if f.isDirectory then tpa
  else if TPAListContainsFile (tpaCStr tpa)
      (RemoveExtensionAndNi (lowerStr f.cFileName)) rgExts then tpa
  else tpa ++ [⟨targetPath, lowerStr f.cFileName⟩]

/-- `HostEnvironment::AddFilesFromDirectoryToTPAList`: for each extension
pattern in priority order, enumerate the files of the directory matching the
pattern and process each one.  `listing` is the directory's contents in
file-system enumeration order. -/
def AddFilesFromDirectoryToTPAList (targetPath : Str) (listing : List DirEntry)
    (rgExts : List Str) (tpa : List Entry) : List Entry :=
  rgExts.foldl
    (fun acc pattern =>
      (listing.filter (fun f => matchesPattern pattern f.cFileName)).foldl
        (processFile rgExts targetPath) acc)
    tpa

/-- The TPA-list build over an ordered sequence of candidate directories
(each given with its listing), starting from the never-appended buffer. -/
def buildTPA (rgExts : List Str) (dirs : List (Str × List DirEntry)) : List Entry :=
  dirs.foldl (fun acc p => AddFilesFromDirectoryToTPAList p.1 p.2 rgExts acc) []

/-- The logical name of a stored entry: its (already lower-cased) file name
with the extension and an optional trailing `.ni` segment stripped. -/
def logicalName (e : Entry) : Str := RemoveExtensionAndNi e.name

/-- A well-formed file name: Windows file names contain neither the path
separator `'\'` nor the list separator `';'`. -/
def wfFileName (n : Str) : Prop := '\\' ∉ n ∧ ';' ∉ n

/-- A well-formed directory path as the host passes it to
`AddFilesFromDirectoryToTPAList`: free of the list separator `';'` and
ending with a backslash. -/
def wfDirPath (d : Str) : Prop := ';' ∉ d ∧ d.getLast? = some '\\'

/-- The probed extension suffixes: `rgTPAExtensions[i] + 1`. -/
def rgSuffixes : List Str :=
  [".ni.dll".data, ".dll".data, ".ni.exe".data, ".exe".data]

theorem rgSuffixes_eq : rgTPAExtensions.map (fun p => p.drop 1) = rgSuffixes := by
  decide

/-! Basic facts about `towlower`, `lowerStr`, `stripNiOfRev` and
`RemoveExtensionAndNi`. -/

theorem snd_lowerTable_ne : ∀ p ∈ lowerTable, p.2 ≠ '\\' ∧ p.2 ≠ ';' := by decide

theorem towlower_eq_backslash {c : Char} (h : towlower c = '\\') : c = '\\' := by
  unfold towlower at h
  split at h
  next p hp =>
    exact absurd h (snd_lowerTable_ne p (List.mem_of_find?_eq_some hp)).1
  next => exact h

theorem towlower_eq_semicolon {c : Char} (h : towlower c = ';') : c = ';' := by
  unfold towlower at h
  split at h
  next p hp =>
    exact absurd h (snd_lowerTable_ne p (List.mem_of_find?_eq_some hp)).2
  next => exact h

theorem lowerStr_wf {n : Str} (h : wfFileName n) : wfFileName (lowerStr n) := by
  obtain ⟨h1, h2⟩ := h
  constructor
  · intro hm
    rcases List.mem_map.mp hm with ⟨c, hc, hcl⟩
    exact h1 (towlower_eq_backslash hcl ▸ hc)
  · intro hm
    rcases List.mem_map.mp hm with ⟨c, hc, hcl⟩
    exact h2 (towlower_eq_semicolon hcl ▸ hc)

theorem stripNiOfRev_suffix (r : Str) : stripNiOfRev r <:+ r := by
  unfold stripNiOfRev
  split
  · split_ifs
    · exact ⟨[_, _, _], rfl⟩
    · exact List.suffix_rfl
  · exact List.suffix_rfl

theorem stripNiOfRev_cases (r : Str) :
    stripNiOfRev r = r ∨
      ∃ d es, r = 'i' :: 'n' :: '.' :: d :: es ∧ stripNiOfRev r = d :: es := by
  unfold stripNiOfRev
  split
  next a b c d es =>
    split_ifs with h
    · exact Or.inr ⟨d, es, by simp [h.1, h.2.1, h.2.2], rfl⟩
    · exact Or.inl rfl
  next => exact Or.inl rfl

theorem RemoveExtensionAndNi_isPre (f : Str) : RemoveExtensionAndNi f <+: f := by
  unfold RemoveExtensionAndNi
  split
  next => exact List.prefix_rfl
  next x rest h =>
    have hsuf : rest <:+ f.reverse := by
      conv_rhs => rw [← List.takeWhile_append_dropWhile (p := fun c => decide (c ≠ '.'))
        (l := f.reverse)]
      rw [h]
      exact (List.suffix_cons x rest).trans (List.suffix_append _ _)
    have h2 : stripNiOfRev rest <:+ f.reverse := (stripNiOfRev_suffix rest).trans hsuf
    have h3 := List.reverse_prefix.mpr h2
    rwa [List.reverse_reverse] at h3

theorem RemoveExtensionAndNi_wf {n : Str} (h : wfFileName n) :
    wfFileName (RemoveExtensionAndNi n) := by
  obtain ⟨h1, h2⟩ := h
  have hsub := (RemoveExtensionAndNi_isPre n).sublist.subset
  exact ⟨fun hm => h1 (hsub hm), fun hm => h2 (hsub hm)⟩

theorem RemoveExtensionAndNi_append {m t : Str} (hdot : '.' ∉ t) :
    RemoveExtensionAndNi (m ++ '.' :: t) = (stripNiOfRev m.reverse).reverse := by
  unfold RemoveExtensionAndNi
  have hrev : (m ++ '.' :: t).reverse = t.reverse ++ '.' :: m.reverse := by
    simp
  rw [hrev, List.dropWhile_append_of_pos, List.dropWhile_cons]
  · simp
  · intro a ha
    simp only [decide_eq_true_eq]
    intro hEq
    exact hdot (hEq ▸ (List.mem_reverse.mp ha))

/-- Every lower-cased file name matched by one of the four patterns splits as
its logical name followed by one of the probed suffixes. -/
theorem keyDecomp {n : Str}
    (h : ".dll".data <:+ n ∨ ".exe".data <:+ n) :
    ∃ e ∈ rgSuffixes, n = RemoveExtensionAndNi n ++ e := by
  have main : ∀ (t : Str), t = "dll".data ∨ t = "exe".data → ('.' :: t) <:+ n →
      ∃ e ∈ rgSuffixes, n = RemoveExtensionAndNi n ++ e := by
    intro t htx ⟨m, hm⟩
    have hdot : '.' ∉ t := by rcases htx with rfl | rfl <;> decide
    subst hm
    rw [RemoveExtensionAndNi_append hdot]
    rcases stripNiOfRev_cases m.reverse with hc | ⟨d, es, hms, hc⟩
    · rw [hc, List.reverse_reverse]
      rcases htx with rfl | rfl
      · exact ⟨".dll".data, by decide, rfl⟩
      · exact ⟨".exe".data, by decide, rfl⟩
    · have hmeq : m = es.reverse ++ [d, '.', 'n', 'i'] := by
        have := congrArg List.reverse hms
        rw [List.reverse_reverse] at this
        simpa using this
      rw [hc, hmeq]
      rcases htx with rfl | rfl
      · exact ⟨".ni.dll".data, by decide, by simp⟩
      · exact ⟨".ni.exe".data, by decide, by simp⟩
  rcases h with ⟨m, hm⟩ | ⟨m, hm⟩
  · exact main "dll".data (Or.inl rfl) ⟨m, by simpa using hm⟩
  · exact main "exe".data (Or.inr rfl) ⟨m, by simpa using hm⟩

/-! The boundary analysis of the `wcsstr`-based membership test: an
occurrence of a probe `"\" + name + ext + ";"` in the flat buffer can only
be a whole stored entry's file name. -/

/-- An occurrence inside a concatenation lies in the left part, in the right
part, or straddles the border. -/
theorem infix_split {α : Type} {p a b : List α} (h : p <:+: a ++ b) :
    p <:+: a ∨ p <:+: b ∨
      ∃ s t, p = s ++ t ∧ s ≠ [] ∧ t ≠ [] ∧ s <:+ a ∧ t <+: b := by
  induction a with
  | nil => exact Or.inr (Or.inl (by simpa using h))
  | cons x a ih =>
    rw [List.cons_append, List.infix_cons_iff] at h
    rcases h with hp | hi
    · have hp' : p <+: (x :: a) ++ b := by simpa using hp
      by_cases hlen : p.length ≤ (x :: a).length
      · exact Or.inl (((List.isPrefix_append_of_length hlen).mp hp').isInfix)
      · push_neg at hlen
        obtain ⟨r, hr⟩ := hp'
        have htk : p.take (x :: a).length = x :: a := by
          have := congrArg (List.take (x :: a).length) hr
          rwa [List.take_append_of_le_length (Nat.le_of_lt hlen),
            List.take_left] at this
        have hdrp : p.drop (x :: a).length ++ r = b := by
          have := congrArg (List.drop (x :: a).length) hr
          rwa [List.drop_append_of_le_length (Nat.le_of_lt hlen),
            List.drop_left] at this
        refine Or.inr (Or.inr ⟨x :: a, p.drop (x :: a).length, ?_, by simp, ?_,
          List.suffix_rfl, ⟨r, hdrp⟩⟩)
        · conv_lhs => rw [← List.take_append_drop (x :: a).length p, htk]
        · apply List.ne_nil_of_length_pos
          rw [List.length_drop]
          omega
    · rcases ih hi with h1 | h1 | ⟨s, t, rfl, hs, hts, hsa, htb⟩
      · exact Or.inl (h1.trans ⟨[x], [], by simp⟩)
      · exact Or.inr (Or.inl h1)
      · exact Or.inr (Or.inr ⟨s, t, rfl, hs, hts, hsa.trans (List.suffix_cons x a), htb⟩)

/-- A nonempty suffix of a nonempty list ends in the same element. -/
theorem getLast?_of_suffix {α : Type} {s t : List α} (h : s <:+ t) (hs : s ≠ []) :
    s.getLast? = t.getLast? := by
  obtain ⟨u, rfl⟩ := h
  rw [List.getLast?_append]
  cases hgl : s.getLast? with
  | none => exact absurd (List.getLast?_eq_none_iff.mp hgl) hs
  | some a => rfl

/-- If a list whose last element is `';'`, with `';'` nowhere else, occurs as
an infix of `z ++ [';']` where `';' ∉ z`, the occurrence is a suffix. -/
theorem infix_concat_semi {p z : List Char} (hz : ';' ∉ z)
    (h : (p ++ [';']) <:+: z ++ [';']) :
    p <:+ z := by
  obtain ⟨u, v, huv⟩ := h
  rcases v.eq_nil_or_concat with rfl | ⟨v', c, rfl⟩
  · rw [List.append_nil] at huv
    have huv' : (u ++ p) ++ [';'] = z ++ [';'] := by
      simpa [List.append_assoc] using huv
    exact ⟨u, (List.append_left_inj _).mp huv'⟩
  · exfalso
    rw [List.concat_eq_append] at huv
    have huv' : (u ++ (p ++ [';']) ++ v') ++ [c] = z ++ [';'] := by
      simpa [List.append_assoc] using huv
    have hz' : u ++ (p ++ [';']) ++ v' = z := by
      have h2 := congrArg List.dropLast huv'
      rwa [List.dropLast_concat, List.dropLast_concat] at h2
    apply hz
    rw [← hz']
    simp

/-- Core boundary lemma: if the probe for logical name `L` and extension
suffix `ext` occurs inside a single stored entry, then that entry's file
name is exactly `L ++ ext`. -/
theorem probe_in_entry {L ext : Str} {e : Entry}
    (hwd : wfDirPath e.dir) (hwn : wfFileName e.name)
    (hL : '\\' ∉ L ∧ ';' ∉ L) (hext : '\\' ∉ ext ∧ ';' ∉ ext)
    (h : ('\\' :: (L ++ ext ++ [';'])) <:+: entryStr e) :
    e.name = L ++ ext := by
  have hz : ';' ∉ e.dir ++ e.name := by
    simp only [List.mem_append]
    rintro (hc | hc)
    · exact hwd.1 hc
    · exact hwn.2 hc
  have hsuf : ('\\' :: (L ++ ext)) <:+ e.dir ++ e.name := by
    have h' : (('\\' :: (L ++ ext)) ++ [';']) <:+: (e.dir ++ e.name) ++ [';'] := by
      simpa [entryStr, List.append_assoc] using h
    exact infix_concat_semi hz h'
  have hname : e.name <:+ e.dir ++ e.name := List.suffix_append _ _
  rcases List.suffix_or_suffix_of_suffix hsuf hname with hcase | hcase
  · exfalso
    exact hwn.1 (hcase.sublist.subset (by simp))
  · rcases List.suffix_cons_iff.mp hcase with heq | hcase'
    · exfalso
      exact hwn.1 (by rw [heq]; simp)
    · obtain ⟨w, hw⟩ := hcase'
      rcases w.eq_nil_or_concat with rfl | ⟨w', c, rfl⟩
      · simpa using hw
      · exfalso
        obtain ⟨u, hu⟩ := hsuf
        rw [← hw] at hu
        have hu' : (u ++ '\\' :: (w' ++ [c])) ++ e.name = e.dir ++ e.name := by
          simpa [List.concat_eq_append, List.append_assoc] using hu
        have hdir : u ++ '\\' :: (w' ++ [c]) = e.dir := (List.append_left_inj _).mp hu'
        have hlast : ('\\' :: (w' ++ [c])).getLast? = some '\\' := by
          rw [getLast?_of_suffix ⟨u, hdir⟩ (by simp), hwd.2]
        have hc : c = '\\' := by
          rw [show ('\\' :: (w' ++ [c])) = ('\\' :: w') ++ [c] from by simp,
            List.getLast?_concat] at hlast
          exact Option.some.inj hlast
        subst hc
        have hcmem : '\\' ∈ L ++ ext := by
          rw [← hw]
          simp [List.concat_eq_append]
        rcases List.mem_append.mp hcmem with hm | hm
        · exact hL.1 hm
        · exact hext.1 hm

theorem flatTpa_cons (e : Entry) (es : List Entry) :
    flatTpa (e :: es) = entryStr e ++ flatTpa es := by
  simp [flatTpa]

theorem entryStr_infix_flatTpa {e : Entry} {es : List Entry} (he : e ∈ es) :
    entryStr e <:+: flatTpa es := by
  obtain ⟨s, t, rfl⟩ := List.append_of_mem he
  refine ⟨flatTpa s, flatTpa t, ?_⟩
  simp [flatTpa, List.append_assoc]

/-- Completeness of `TPAListContainsFile`: a stored entry whose file name is
`L` followed by one of the probed suffixes is always found. -/
theorem TPAListContainsFile_complete {es : List Entry} {L : Str} {rgExts : List Str}
    {e : Entry} {x : Str} (he : e ∈ es) (hx : x ∈ rgExts)
    (hname : e.name = L ++ x.drop 1) (hd : e.dir.getLast? = some '\\') :
    TPAListContainsFile (tpaCStr es) L rgExts = true := by
  have hes : es ≠ [] := by rintro rfl; simp at he
  unfold TPAListContainsFile tpaCStr
  rw [if_neg hes]
  simp only [List.any_eq_true, decide_eq_true_eq]
  refine ⟨x, hx, ?_⟩
  have hmem : '\\' ∈ e.dir.getLast? := by rw [hd]; rfl
  have hdir : e.dir.dropLast ++ ['\\'] = e.dir :=
    List.dropLast_append_getLast? '\\' hmem
  have hpe : ('\\' :: (L ++ x.drop 1 ++ [';'])) <:+: entryStr e := by
    refine ⟨e.dir.dropLast, [], ?_⟩
    rw [entryStr, ← hdir, hname]
    simp [List.append_assoc]
  exact hpe.trans (entryStr_infix_flatTpa he)

/-- Soundness of `TPAListContainsFile`: under the well-formedness conditions
on stored entries, the probed logical name and the probed suffixes, a hit
can only come from a stored entry whose file name is exactly the probed name
followed by a probed suffix. -/
theorem TPAListContainsFile_sound {es : List Entry} {L : Str} {rgExts : List Str}
    (hwf : ∀ e ∈ es, wfDirPath e.dir ∧ wfFileName e.name)
    (hL : '\\' ∉ L ∧ ';' ∉ L)
    (hexts : ∀ x ∈ rgExts, '\\' ∉ x.drop 1 ∧ ';' ∉ x.drop 1)
    (h : TPAListContainsFile (tpaCStr es) L rgExts = true) :
    ∃ e ∈ es, ∃ x ∈ rgExts, e.name = L ++ x.drop 1 := by
  unfold TPAListContainsFile tpaCStr at h
  by_cases hes : es = []
  · rw [if_pos hes] at h
    cases h
  · rw [if_neg hes] at h
    simp only [List.any_eq_true, decide_eq_true_eq] at h
    obtain ⟨x, hx, hocc⟩ := h
    suffices hgen : ∀ es', (∀ e ∈ es', wfDirPath e.dir ∧ wfFileName e.name) →
        ('\\' :: (L ++ x.drop 1 ++ [';'])) <:+: flatTpa es' →
        ∃ e ∈ es', e.name = L ++ x.drop 1 by
      obtain ⟨e, he, hn⟩ := hgen es hwf hocc
      exact ⟨e, he, x, hx, hn⟩
    intro es'
    induction es' with
    | nil =>
      intro _ hocc'
      exfalso
      have := hocc'.length_le
      simp [flatTpa] at this
    | cons e0 tl ih =>
      intro hwf' hocc'
      rw [flatTpa_cons] at hocc'
      rcases infix_split hocc' with hin | hin | ⟨s, t, hst, hs, ht, hsa, htb⟩
      · have hwf0 := hwf' e0 (by simp)
        exact ⟨e0, by simp, probe_in_entry hwf0.1 hwf0.2 hL (hexts x hx) hin⟩
      · obtain ⟨e, he, hn⟩ := ih (fun e he' => hwf' e (by simp [he'])) hin
        exact ⟨e, by simp [he], hn⟩
      · exfalso
        have hslast : s.getLast? = some ';' := by
          rw [getLast?_of_suffix hsa hs, entryStr,
            show e0.dir ++ e0.name ++ [';'] = (e0.dir ++ e0.name) ++ [';'] from by
              simp [List.append_assoc]]
          exact List.getLast?_concat _
        have hsemi : ';' ∈ s := List.mem_of_getLast?_eq_some hslast
        have hdl : ('\\' :: (L ++ x.drop 1 ++ [';'])).dropLast =
            '\\' :: (L ++ x.drop 1) := by
          rw [show ('\\' :: (L ++ x.drop 1 ++ [';'])) =
              ('\\' :: (L ++ x.drop 1)) ++ [';'] from by simp [List.append_assoc]]
          exact List.dropLast_concat
        have hpfx : s <+: '\\' :: (L ++ x.drop 1) := by
          rw [← hdl, hst, List.dropLast_append_of_ne_nil s ht]
          exact List.prefix_append s t.dropLast
        have hmem : ';' ∈ '\\' :: (L ++ x.drop 1) := hpfx.sublist.subset hsemi
        simp only [List.mem_cons, List.mem_append] at hmem
        rcases hmem with hm | hm | hm
        · exact absurd hm.symm (by decide)
        · exact hL.2 hm
        · exact (hexts x hx).2 hm

/-! The invariant maintained by the TPA-list build. -/

/-- A well-formed trust-list entry. -/
def wfEntry (e : Entry) : Prop := wfDirPath e.dir ∧ wfFileName e.name

/-- The build invariant: every stored entry is well formed and splits as its
logical name followed by a probed suffix, and logical names are pairwise
distinct. -/
def TpaInv (rgExts : List Str) (es : List Entry) : Prop :=
  (∀ e ∈ es, wfEntry e ∧
    ∃ x ∈ rgExts, e.name = RemoveExtensionAndNi e.name ++ x.drop 1) ∧
  es.Pairwise (fun a b => logicalName a ≠ logicalName b)

theorem perm_exts_wf {rgExts : List Str} (hperm : rgExts.Perm rgTPAExtensions) :
    ∀ x ∈ rgExts, '\\' ∉ x.drop 1 ∧ ';' ∉ x.drop 1 := by
  intro x hx
  have hmem : x ∈ rgTPAExtensions := hperm.mem_iff.mp hx
  simp only [rgTPAExtensions, List.mem_cons, List.not_mem_nil, or_false] at hmem
  rcases hmem with rfl | rfl | rfl | rfl <;> decide

theorem matched_ends_dll_exe {rgExts : List Str} (hperm : rgExts.Perm rgTPAExtensions)
    {pattern n : Str} (hpat : pattern ∈ rgExts) (hsuf : (pattern.drop 1) <:+ n) :
    ".dll".data <:+ n ∨ ".exe".data <:+ n := by
  have hmem : pattern ∈ rgTPAExtensions := hperm.mem_iff.mp hpat
  simp only [rgTPAExtensions, List.mem_cons, List.not_mem_nil, or_false] at hmem
  rcases hmem with rfl | rfl | rfl | rfl
  · exact Or.inl ((show ".dll".data <:+ ("*.ni.dll".data).drop 1 by decide).trans hsuf)
  · exact Or.inl ((show ".dll".data <:+ ("*.dll".data).drop 1 by decide).trans hsuf)
  · exact Or.inr ((show ".exe".data <:+ ("*.ni.exe".data).drop 1 by decide).trans hsuf)
  · exact Or.inr ((show ".exe".data <:+ ("*.exe".data).drop 1 by decide).trans hsuf)

theorem processFile_inv {rgExts : List Str} (hperm : rgExts.Perm rgTPAExtensions)
    {targetPath : Str} (hdir : wfDirPath targetPath)
    {f : DirEntry} (hwfn : wfFileName f.cFileName)
    (hmatch : ∃ pattern ∈ rgExts, matchesPattern pattern f.cFileName = true)
    {es : List Entry} (hinv : TpaInv rgExts es) :
    TpaInv rgExts (processFile rgExts targetPath es f) := by
  unfold processFile
  split
  · exact hinv
  split
  · exact hinv
  next hcontains =>
    obtain ⟨hall, hpw⟩ := hinv
    have hwl : wfFileName (lowerStr f.cFileName) := lowerStr_wf hwfn
    obtain ⟨pattern, hpat, hm⟩ := hmatch
    have hsuf : (pattern.drop 1) <:+ lowerStr f.cFileName := by
      rw [matchesPattern] at hm
      exact List.isSuffixOf_iff_suffix.mp hm
    obtain ⟨ε, hεmem, hdecomp⟩ := keyDecomp (matched_ends_dll_exe hperm hpat hsuf)
    obtain ⟨x, hxmem, hxdrop⟩ : ∃ x ∈ rgExts, x.drop 1 = ε := by
      have hε : ε ∈ rgTPAExtensions.map (fun p => p.drop 1) := rgSuffixes_eq ▸ hεmem
      obtain ⟨x, hx, hxd⟩ := List.mem_map.mp hε
      exact ⟨x, hperm.mem_iff.mpr hx, hxd⟩
    constructor
    · intro e he
      rcases List.mem_append.mp he with he | he
      · exact hall e he
      · rw [List.mem_singleton] at he
        subst he
        exact ⟨⟨hdir, hwl⟩, x, hxmem, by rw [hxdrop]; exact hdecomp⟩
    · rw [List.pairwise_append]
      refine ⟨hpw, List.pairwise_singleton _ _, ?_⟩
      intro a ha b hb
      rw [List.mem_singleton] at hb
      subst hb
      intro heq
      obtain ⟨hwfa, y, hy, hadecomp⟩ := hall a ha
      apply hcontains
      refine TPAListContainsFile_complete ha hy ?_ hwfa.1.2
      rw [hadecomp]
      have heq' : RemoveExtensionAndNi a.name =
          RemoveExtensionAndNi (lowerStr f.cFileName) := heq
      rw [heq']

theorem foldl_inv {β : Type} (P : List Entry → Prop) (step : List Entry → β → List Entry)
    (l : List β) (hstep : ∀ acc b, b ∈ l → P acc → P (step acc b)) :
    ∀ acc, P acc → P (l.foldl step acc) := by
  induction l with
  | nil => exact fun acc h => h
  | cons b tl ih =>
    intro acc h
    exact ih (fun acc' b' hb' => hstep acc' b' (List.mem_cons_of_mem b hb'))
      _ (hstep acc b (List.mem_cons_self b tl) h)

theorem AddFiles_inv {rgExts : List Str} (hperm : rgExts.Perm rgTPAExtensions)
    {targetPath : Str} (hdir : wfDirPath targetPath)
    {listing : List DirEntry} (hlist : ∀ f ∈ listing, wfFileName f.cFileName)
    {es : List Entry} (hinv : TpaInv rgExts es) :
    TpaInv rgExts (AddFilesFromDirectoryToTPAList targetPath listing rgExts es) := by
  unfold AddFilesFromDirectoryToTPAList
  refine foldl_inv (TpaInv rgExts) _ rgExts ?_ es hinv
  intro acc pattern hpattern hacc
  refine foldl_inv (TpaInv rgExts) _ _ ?_ acc hacc
  intro acc' f hf hacc'
  have hfl := List.mem_filter.mp hf
  exact processFile_inv hperm hdir (hlist f hfl.1) ⟨pattern, hpattern, hfl.2⟩ hacc'

theorem buildTPA_inv {rgExts : List Str} (hperm : rgExts.Perm rgTPAExtensions)
    {dirs : List (Str × List DirEntry)}
    (hdirs : ∀ p ∈ dirs, wfDirPath p.1 ∧ ∀ f ∈ p.2, wfFileName f.cFileName) :
    TpaInv rgExts (buildTPA rgExts dirs) := by
  unfold buildTPA
  refine foldl_inv (TpaInv rgExts) _ dirs ?_ [] ⟨by simp, List.Pairwise.nil⟩
  intro acc p hp hacc
  exact AddFiles_inv hperm (hdirs p hp).1 (hdirs p hp).2 hacc

/-! The list is append-only. -/

theorem foldl_extend {β : Type} (step : List Entry → β → List Entry)
    (hstep : ∀ acc b, ∃ ex, step acc b = acc ++ ex) (l : List β) :
    ∀ acc, ∃ ex, l.foldl step acc = acc ++ ex := by
  induction l with
  | nil => exact fun acc => ⟨[], by simp⟩
  | cons b tl ih =>
    intro acc
    obtain ⟨ex1, he1⟩ := hstep acc b
    obtain ⟨ex2, he2⟩ := ih (step acc b)
    exact ⟨ex1 ++ ex2, by rw [List.foldl_cons, he2, he1, List.append_assoc]⟩

theorem processFile_extend (rgExts : List Str) (targetPath : Str)
    (es : List Entry) (f : DirEntry) :
    ∃ ex, processFile rgExts targetPath es f = es ++ ex := by
  unfold processFile
  split
  · exact ⟨[], by simp⟩
  split
  · exact ⟨[], by simp⟩
  · exact ⟨_, rfl⟩

theorem AddFiles_extend (targetPath : Str) (listing : List DirEntry)
    (rgExts : List Str) (es : List Entry) :
    ∃ ex, AddFilesFromDirectoryToTPAList targetPath listing rgExts es = es ++ ex := by
  unfold AddFilesFromDirectoryToTPAList
  refine foldl_extend _ ?_ rgExts es
  intro acc pattern
  exact foldl_extend _ (fun acc' f => processFile_extend rgExts targetPath acc' f) _ acc

/-- C1: for every sequence of scanned candidate directories (with well-formed
directory paths and file names) and every extension-priority order, the trust
list built by the TPA-list build contains no two path entries whose logical
names (case-folded file name with the matched extension and an optional
trailing `.ni` segment stripped) are equal; and a file whose logical name
already occurs in a list satisfying the build invariant is skipped, not
appended. -/
theorem C1_tpa_no_duplicate_logical_names
    (rgExts : List Str) (hperm : rgExts.Perm rgTPAExtensions)
    (dirs : List (Str × List DirEntry))
    (hdirs : ∀ p ∈ dirs, wfDirPath p.1 ∧ ∀ f ∈ p.2, wfFileName f.cFileName) :
    ((buildTPA rgExts dirs).Pairwise fun a b => logicalName a ≠ logicalName b) ∧
    (∀ es targetPath f, TpaInv rgExts es → f.isDirectory = false →
      (∃ e ∈ es, logicalName e = RemoveExtensionAndNi (lowerStr f.cFileName)) →
      processFile rgExts targetPath es f = es) := by
  constructor
  · exact (buildTPA_inv hperm hdirs).2
  · intro es targetPath f hinv hfdir ⟨e, he, hlog⟩
    obtain ⟨hall, -⟩ := hinv
    obtain ⟨hwfe, y, hy, hdecomp⟩ := hall e he
    unfold processFile
    rw [if_neg (by simp [hfdir]), if_pos]
    refine TPAListContainsFile_complete he hy ?_ hwfe.1.2
    rw [hdecomp]
    have hlog' : RemoveExtensionAndNi e.name =
        RemoveExtensionAndNi (lowerStr f.cFileName) := hlog
    rw [hlog']

/-- Witness for C1: a concrete two-directory scan with case-folded duplicates
across patterns and directories, and a concrete skipped file. -/
theorem C1_witness :
    ((buildTPA rgTPAExtensions
        [("c:\\a\\".data,
          [⟨"Foo.ni.dll".data, false⟩, ⟨"FOO.DLL".data, false⟩, ⟨"bar.exe".data, false⟩]),
         ("c:\\b\\".data, [⟨"foo.dll".data, false⟩, ⟨"baz.ni.exe".data, false⟩])]).Pairwise
        fun a b => logicalName a ≠ logicalName b) ∧
    processFile rgTPAExtensions "c:\\c\\".data
      [⟨"c:\\a\\".data, "foo.dll".data⟩] ⟨"FOO.ni.dll".data, false⟩ =
      [⟨"c:\\a\\".data, "foo.dll".data⟩] := by
  have h := C1_tpa_no_duplicate_logical_names rgTPAExtensions
    (List.Perm.refl _)
    [("c:\\a\\".data,
      [⟨"Foo.ni.dll".data, false⟩, ⟨"FOO.DLL".data, false⟩, ⟨"bar.exe".data, false⟩]),
     ("c:\\b\\".data, [⟨"foo.dll".data, false⟩, ⟨"baz.ni.exe".data, false⟩])]
    (by unfold wfDirPath wfFileName; decide)
  refine ⟨h.1, h.2 [⟨"c:\\a\\".data, "foo.dll".data⟩] "c:\\c\\".data
    ⟨"FOO.ni.dll".data, false⟩ ?_ rfl ?_⟩
  · unfold TpaInv wfEntry wfDirPath wfFileName logicalName
    decide
  · unfold logicalName
    decide

/-! The flattened scan-order view of the build, used for the first-match and
first-writer-wins properties. -/

/-- The flattened scan sequence: candidate directories in priority order,
extension patterns in priority order, matched files in enumeration order. -/
def scanSeq (rgExts : List Str) (dirs : List (Str × List DirEntry)) :
    List (Str × DirEntry) :=
  dirs.flatMap fun p =>
    rgExts.flatMap fun pattern =>
      (p.2.filter fun f => matchesPattern pattern f.cFileName).map fun f => (p.1, f)

theorem foldl_flatMap {α β γ : Type} (g : β → List γ) (step : α → γ → α)
    (l : List β) (acc : α) :
    (l.flatMap g).foldl step acc =
      l.foldl (fun a b => (g b).foldl step a) acc := by
  induction l generalizing acc with
  | nil => rfl
  | cons b tl ih => rw [List.flatMap_cons, List.foldl_append, List.foldl_cons, ih]

theorem buildTPA_eq_scan (rgExts : List Str) (dirs : List (Str × List DirEntry)) :
    buildTPA rgExts dirs =
      (scanSeq rgExts dirs).foldl
        (fun acc pf => processFile rgExts pf.1 acc pf.2) [] := by
  unfold buildTPA scanSeq AddFilesFromDirectoryToTPAList
  rw [foldl_flatMap]
  congr 1
  funext acc p
  rw [foldl_flatMap]
  congr 1
  funext acc' pattern
  rw [List.foldl_map]

/-- C10: the trust-list membership test returns false whenever the list is
still null (nothing appended yet); consequently the first non-directory file
matched during any build is always appended, becoming the head of the
list. -/
theorem C10_empty_list_contains_nothing :
    (∀ (L : Str) (rgExts : List Str), TPAListContainsFile none L rgExts = false) ∧
    (∀ (rgExts : List Str) (dirs : List (Str × List DirEntry))
      (pre : List (Str × DirEntry)) (d : Str) (f : DirEntry)
      (post : List (Str × DirEntry)),
      scanSeq rgExts dirs = pre ++ (d, f) :: post →
      (∀ x ∈ pre, x.2.isDirectory = true) →
      f.isDirectory = false →
      ∃ rest, buildTPA rgExts dirs = ⟨d, lowerStr f.cFileName⟩ :: rest) := by
  constructor
  · intro L rgExts
    rfl
  · intro rgExts dirs pre d f post hscan hpre hf
    rw [buildTPA_eq_scan, hscan, List.foldl_append]
    have hpreeq : ∀ pr : List (Str × DirEntry), (∀ x ∈ pr, x.2.isDirectory = true) →
        pr.foldl (fun acc pf => processFile rgExts pf.1 acc pf.2) ([] : List Entry) = [] := by
      intro pr
      induction pr with
      | nil => exact fun _ => rfl
      | cons x tl ih =>
        intro hpr
        rw [List.foldl_cons]
        have hx : processFile rgExts x.1 [] x.2 = [] := by
          unfold processFile
          rw [if_pos (hpr x (List.mem_cons_self x tl))]
        rw [hx]
        exact ih fun y hy => hpr y (List.mem_cons_of_mem x hy)
    rw [hpreeq pre hpre, List.foldl_cons]
    have hstep : processFile rgExts d [] f = [⟨d, lowerStr f.cFileName⟩] := by
      unfold processFile
      rw [if_neg (by simp [hf]), if_neg (by simp [tpaCStr, TPAListContainsFile])]
      rfl
    rw [hstep]
    obtain ⟨ex, hex⟩ := foldl_extend _
      (fun acc pf => processFile_extend rgExts pf.1 acc pf.2) post
      [⟨d, lowerStr f.cFileName⟩]
    exact ⟨ex, by rw [hex]; rfl⟩

/-! Helper calculations for the first-writer-wins analyses. -/

theorem stripNiOfRev_of_not_ni {L : Str} (h : ¬ (".ni".data <:+ L)) :
    stripNiOfRev L.reverse = L.reverse := by
  rcases stripNiOfRev_cases L.reverse with hc | ⟨d, es, hms, -⟩
  · exact hc
  · exfalso
    apply h
    refine ⟨(d :: es).reverse, ?_⟩
    have := congrArg List.reverse hms
    rw [List.reverse_reverse] at this
    rw [this]
    simp

/-- Computation of the logical name of `L ++ ε` for each probed suffix `ε`,
when `L` is nonempty and does not itself end in `".ni"`. -/
theorem Remove_append_suffix {L ε : Str} (hL : L ≠ []) (hni : ¬ (".ni".data <:+ L))
    (hε : ε ∈ rgSuffixes) : RemoveExtensionAndNi (L ++ ε) = L := by
  obtain ⟨c, cs, hrev⟩ : ∃ c cs, L.reverse = c :: cs := by
    cases hrev : L.reverse with
    | nil => exact absurd (by simpa using congrArg List.reverse hrev) hL
    | cons c cs => exact ⟨c, cs, rfl⟩
  simp only [rgSuffixes, List.mem_cons, List.not_mem_nil, or_false] at hε
  rcases hε with rfl | rfl | rfl | rfl
  · rw [show L ++ ".ni.dll".data = (L ++ ".ni".data) ++ '.' :: "dll".data from by simp,
      RemoveExtensionAndNi_append (by decide)]
    rw [show (L ++ ".ni".data).reverse = 'i' :: 'n' :: '.' :: L.reverse from by simp,
      hrev]
    rw [show stripNiOfRev ('i' :: 'n' :: '.' :: c :: cs) = c :: cs from by
      simp [stripNiOfRev], ← hrev, List.reverse_reverse]
  · rw [show L ++ ".dll".data = L ++ '.' :: "dll".data from by simp,
      RemoveExtensionAndNi_append (by decide), stripNiOfRev_of_not_ni hni,
      List.reverse_reverse]
  · rw [show L ++ ".ni.exe".data = (L ++ ".ni".data) ++ '.' :: "exe".data from by simp,
      RemoveExtensionAndNi_append (by decide)]
    rw [show (L ++ ".ni".data).reverse = 'i' :: 'n' :: '.' :: L.reverse from by simp,
      hrev]
    rw [show stripNiOfRev ('i' :: 'n' :: '.' :: c :: cs) = c :: cs from by
      simp [stripNiOfRev], ← hrev, List.reverse_reverse]
  · rw [show L ++ ".exe".data = L ++ '.' :: "exe".data from by simp,
      RemoveExtensionAndNi_append (by decide), stripNiOfRev_of_not_ni hni,
      List.reverse_reverse]

/-- Two appended lists with incompatible last elements are different. -/
theorem append_ne_of_getLast_ne {z L s t : Str} (hs : s ≠ []) (ht : t ≠ [])
    (hne : s.getLast? ≠ t.getLast?) : z ++ s ≠ L ++ t := by
  intro h
  obtain ⟨c, hc⟩ : ∃ c, s.getLast? = some c := by
    cases hgl : s.getLast? with
    | none => exact absurd (List.getLast?_eq_none_iff.mp hgl) hs
    | some c => exact ⟨c, rfl⟩
  obtain ⟨d, hd⟩ : ∃ d, t.getLast? = some d := by
    cases hgl : t.getLast? with
    | none => exact absurd (List.getLast?_eq_none_iff.mp hgl) ht
    | some d => exact ⟨d, rfl⟩
  have h1 := congrArg List.getLast? h
  rw [List.getLast?_append, List.getLast?_append, hc, hd] at h1
  exact hne (by rw [hc, hd, Option.some.inj h1])

/-- If `L ++ ".dll"` ends in `".ni.dll"` then `L` ends in `".ni"`. -/
theorem ni_of_dll_eq {L z : Str} (h : z ++ ".ni.dll".data = L ++ ".dll".data) :
    ".ni".data <:+ L := by
  have h' : (z ++ ".ni".data) ++ ".dll".data = L ++ ".dll".data := by
    rw [show (".ni.dll".data : Str) = ".ni".data ++ ".dll".data from rfl] at h
    rw [← List.append_assoc] at h
    exact h
  exact ⟨z, (List.append_left_inj _).mp h'⟩

/-- Every entry the directory scan adds carries the scanned directory path
and the lower-cased name of a non-directory file of the listing. -/
theorem AddFiles_entries_from {targetPath : Str} {listing : List DirEntry}
    {rgExts : List Str} {acc : List Entry} :
    ∀ e ∈ AddFilesFromDirectoryToTPAList targetPath listing rgExts acc,
      e ∈ acc ∨ (e.dir = targetPath ∧
        ∃ g ∈ listing, g.isDirectory = false ∧ e.name = lowerStr g.cFileName) := by
  unfold AddFilesFromDirectoryToTPAList
  refine foldl_inv
    (fun es => ∀ e ∈ es, e ∈ acc ∨ (e.dir = targetPath ∧
      ∃ g ∈ listing, g.isDirectory = false ∧ e.name = lowerStr g.cFileName))
    _ rgExts ?_ acc (fun e he => Or.inl he)
  intro acc1 pattern _hmem hacc1
  refine foldl_inv
    (fun es => ∀ e ∈ es, e ∈ acc ∨ (e.dir = targetPath ∧
      ∃ g ∈ listing, g.isDirectory = false ∧ e.name = lowerStr g.cFileName))
    _ _ ?_ acc1 hacc1
  intro acc2 f hf hacc2
  intro e he
  unfold processFile at he
  split at he
  · exact hacc2 e he
  next hdir =>
  split at he
  · exact hacc2 e he
  · rcases List.mem_append.mp he with he | he
    · exact hacc2 e he
    · rw [List.mem_singleton] at he
      subst he
      refine Or.inr ⟨rfl, f, (List.mem_filter.mp hf).1, ?_, rfl⟩
      cases hb : f.isDirectory with
      | false => rfl
      | true => exact absurd hb hdir

/-- Invariant during the prefix of the `*.ni.dll` pass of the
same-directory scenario: every entry stored so far is the lower-cased name
of a non-directory `*.ni.dll` match of the listing. -/
def NiScanInv (d : Str) (listing : List DirEntry) (es : List Entry) : Prop :=
  ∀ e ∈ es, e.dir = d ∧ ".ni.dll".data <:+ e.name ∧
    ∃ g ∈ listing, g.isDirectory = false ∧ e.name = lowerStr g.cFileName

/-- Both halves of the same-directory first-writer-wins goal: the
optimized-image entry is on the list and the plain entry never is. -/
def RetainNi (d L : Str) (es : List Entry) : Prop :=
  (∃ e ∈ es, e.dir = d ∧ e.name = L ++ ".ni.dll".data) ∧
  ∀ e ∈ es, e.name ≠ L ++ ".dll".data

/-- Once the optimized-image entry is on the list, no later file can add the
plain `.dll` entry with the same logical name: any such candidate probes the
`.ni.dll` combination and is skipped. -/
theorem RetainNi_step {d L : Str} (hd : wfDirPath d) (hL : L ≠ [])
    (hLni : ¬ (".ni".data <:+ L)) (acc : List Entry) (f : DirEntry)
    (hR : RetainNi d L acc) :
    RetainNi d L (processFile rgTPAExtensions d acc f) := by
  unfold processFile
  split
  · exact hR
  split
  · exact hR
  next hcont =>
    obtain ⟨⟨e, he, hed, hen⟩, hno⟩ := hR
    constructor
    · exact ⟨e, List.mem_append_left _ he, hed, hen⟩
    · intro e' he'
      rcases List.mem_append.mp he' with he' | he'
      · exact hno e' he'
      · rw [List.mem_singleton] at he'
        subst he'
        intro heq
        apply hcont
        refine TPAListContainsFile_complete he
          (show "*.ni.dll".data ∈ rgTPAExtensions by decide) ?_ (hed ▸ hd.2)
        have hrem : RemoveExtensionAndNi (lowerStr f.cFileName) = L := by
          rw [show lowerStr f.cFileName = L ++ ".dll".data from heq]
          exact Remove_append_suffix hL hLni (by decide)
        rw [hrem, hen,
          show (List.drop 1 ("*.ni.dll".data) : Str) = ".ni.dll".data from by decide]

/-- Same-directory half of C4: when a logical name is present under both the
optimized-image pattern and the plain pattern in one scanned directory, the
optimized-image path is retained and the plain path never enters the
list. -/
theorem ni_preferred_same_dir
    {d : Str} {listing : List DirEntry} {L : Str} {f1 : DirEntry}
    (hd : wfDirPath d)
    (hlist : ∀ f ∈ listing, wfFileName f.cFileName)
    (hf1 : f1 ∈ listing) (hf1d : f1.isDirectory = false)
    (hf1n : lowerStr f1.cFileName = L ++ ".ni.dll".data)
    (hL : L ≠ []) (hLni : ¬ (".ni".data <:+ L)) :
    RetainNi d L (buildTPA rgTPAExtensions [(d, listing)]) := by
  have hf1m : f1 ∈ listing.filter
      (fun f => matchesPattern "*.ni.dll".data f.cFileName) := by
    refine List.mem_filter.mpr ⟨hf1, ?_⟩
    unfold matchesPattern
    rw [hf1n, show (List.drop 1 "*.ni.dll".data : Str) = ".ni.dll".data from by decide]
    exact List.isSuffixOf_iff_suffix.mpr (List.suffix_append L _)
  obtain ⟨pre1, post1, hm1⟩ := List.append_of_mem hf1m
  have hrem1 : RemoveExtensionAndNi (lowerStr f1.cFileName) = L := by
    rw [hf1n]
    exact Remove_append_suffix hL hLni (by decide)
  have hscan : scanSeq rgTPAExtensions [(d, listing)] =
      (pre1.map fun g => (d, g)) ++ (d, f1) ::
      ((post1.map fun g => (d, g)) ++
        (["*.dll".data, "*.ni.exe".data, "*.exe".data].flatMap fun pattern =>
          (listing.filter fun f => matchesPattern pattern f.cFileName).map
            fun f => (d, f))) := by
    unfold scanSeq rgTPAExtensions
    rw [List.flatMap_cons, List.flatMap_nil, List.append_nil, List.flatMap_cons,
      hm1, List.map_append, List.map_cons, List.append_assoc]
    rfl
  rw [buildTPA_eq_scan, hscan, List.foldl_append, List.foldl_cons]
  have hinvpre : NiScanInv d listing
      ((pre1.map fun g => (d, g)).foldl
        (fun acc pf => processFile rgTPAExtensions pf.1 acc pf.2) []) := by
    refine foldl_inv (NiScanInv d listing) _ _ ?_ [] (by intro e he; cases he)
    intro acc x hx hacc
    obtain ⟨g, hg, rfl⟩ := List.mem_map.mp hx
    have hgm : g ∈ listing.filter
        (fun f => matchesPattern "*.ni.dll".data f.cFileName) := by
      rw [hm1]
      exact List.mem_append_left _ hg
    have hgl := List.mem_filter.mp hgm
    intro e he
    unfold processFile at he
    split at he
    · exact hacc e he
    next hgdir =>
    split at he
    · exact hacc e he
    · rcases List.mem_append.mp he with he | he
      · exact hacc e he
      · rw [List.mem_singleton] at he
        subst he
        refine ⟨rfl, ?_, g, hgl.1, ?_, rfl⟩
        · have := List.isSuffixOf_iff_suffix.mp hgl.2
          rwa [show (List.drop 1 "*.ni.dll".data : Str) = ".ni.dll".data from by decide]
            at this
        · cases hb : g.isDirectory with
          | false => rfl
          | true => exact absurd hb hgdir
  have hnodll : ∀ es, NiScanInv d listing es → ∀ e ∈ es, e.name ≠ L ++ ".dll".data := by
    intro es hinv e he heq
    obtain ⟨-, ⟨z, hz⟩, -⟩ := hinv e he
    rw [heq] at hz
    exact hLni (ni_of_dll_eq hz)
  have hRmid : RetainNi d L
      (processFile rgTPAExtensions d
        ((pre1.map fun g => (d, g)).foldl
          (fun acc pf => processFile rgTPAExtensions pf.1 acc pf.2) []) f1) := by
    set Spre := (pre1.map fun g => (d, g)).foldl
      (fun acc pf => processFile rgTPAExtensions pf.1 acc pf.2) [] with hSpre
    by_cases hcont : TPAListContainsFile (tpaCStr Spre)
        (RemoveExtensionAndNi (lowerStr f1.cFileName)) rgTPAExtensions = true
    · have hmid : processFile rgTPAExtensions d Spre f1 = Spre := by
        unfold processFile
        rw [if_neg (by simp [hf1d]), if_pos hcont]
      rw [hmid]
      have hwf : ∀ e ∈ Spre, wfDirPath e.dir ∧ wfFileName e.name := by
        intro e he
        obtain ⟨hed, -, g, hg, -, hen⟩ := hinvpre e he
        exact ⟨hed ▸ hd, hen ▸ lowerStr_wf (hlist g hg)⟩
      have hLwf : '\\' ∉ L ∧ ';' ∉ L := by
        have := RemoveExtensionAndNi_wf (lowerStr_wf (hlist f1 hf1))
        rwa [hrem1] at this
      have hcontL : TPAListContainsFile (tpaCStr Spre) L rgTPAExtensions = true := by
        rw [← hrem1]
        exact hcont
      obtain ⟨e, he, x, hx, hxname⟩ := TPAListContainsFile_sound hwf hLwf
        (perm_exts_wf (List.Perm.refl _)) hcontL
      obtain ⟨hed, ⟨z, hz⟩, -⟩ := hinvpre e he
      simp only [rgTPAExtensions, List.mem_cons, List.not_mem_nil, or_false] at hx
      rcases hx with rfl | rfl | rfl | rfl
      · rw [show (List.drop 1 "*.ni.dll".data : Str) = ".ni.dll".data from by decide]
          at hxname
        exact ⟨⟨e, he, hed, hxname⟩, hnodll Spre hinvpre⟩
      · exfalso
        rw [show (List.drop 1 "*.dll".data : Str) = ".dll".data from by decide]
          at hxname
        rw [hxname] at hz
        exact hLni (ni_of_dll_eq hz)
      · exfalso
        rw [show (List.drop 1 "*.ni.exe".data : Str) = ".ni.exe".data from by decide]
          at hxname
        rw [hxname] at hz
        exact append_ne_of_getLast_ne (by decide) (by decide) (by decide) hz
      · exfalso
        rw [show (List.drop 1 "*.exe".data : Str) = ".exe".data from by decide]
          at hxname
        rw [hxname] at hz
        exact append_ne_of_getLast_ne (by decide) (by decide) (by decide) hz
    · have hmid : processFile rgTPAExtensions d Spre f1 =
          Spre ++ [⟨d, lowerStr f1.cFileName⟩] := by
        unfold processFile
        rw [if_neg (by simp [hf1d]), if_neg hcont]
      rw [hmid]
      constructor
      · exact ⟨⟨d, lowerStr f1.cFileName⟩,
          List.mem_append_right _ (List.mem_singleton.mpr rfl), rfl, hf1n⟩
      · intro e he
        rcases List.mem_append.mp he with he | he
        · exact hnodll Spre hinvpre e he
        · rw [List.mem_singleton] at he
          subst he
          show lowerStr f1.cFileName ≠ L ++ ".dll".data
          rw [hf1n]
          intro h
          exact absurd ((List.append_right_inj L).mp h) (by decide)
  refine foldl_inv (RetainNi d L) _ _ ?_ _ hRmid
  intro acc x hx hacc
  have hxd : x.1 = d := by
    rcases List.mem_append.mp hx with hx | hx
    · obtain ⟨g, -, rfl⟩ := List.mem_map.mp hx
      rfl
    · obtain ⟨pattern, -, hx2⟩ := List.mem_flatMap.mp hx
      obtain ⟨g, -, rfl⟩ := List.mem_map.mp hx2
      rfl
  rw [hxd]
  exact RetainNi_step hd hL hLni acc x.2 hacc

theorem mem_scanSeq_single {rgExts : List Str} {d : Str} {l : List DirEntry}
    {x : Str × DirEntry} (hx : x ∈ scanSeq rgExts [(d, l)]) :
    x.1 = d ∧ x.2 ∈ l := by
  unfold scanSeq at hx
  obtain ⟨p, hp, hx1⟩ := List.mem_flatMap.mp hx
  obtain ⟨pattern, -, hx2⟩ := List.mem_flatMap.mp hx1
  obtain ⟨g, hg, rfl⟩ := List.mem_map.mp hx2
  rw [List.mem_singleton] at hp
  subst hp
  exact ⟨rfl, (List.mem_filter.mp hg).1⟩

/-- The invariant of the first-directory stage: every entry carries the
first directory's path and a lower-cased listing name. -/
def Stage1Inv (d1 : Str) (l1 : List DirEntry) (es : List Entry) : Prop :=
  ∀ e ∈ es, e.dir = d1 ∧ ∃ g ∈ l1, g.isDirectory = false ∧ e.name = lowerStr g.cFileName

/-- Once an entry with file name `L ++ e1` from the first directory is on
the list, processing any file of a later directory can only add names
outside the probe set of `L`. -/
theorem block_probe_step {d1 d2 L e1 : Str}
    (hd1 : wfDirPath d1) (hL : L ≠ []) (hLni : ¬ (".ni".data <:+ L))
    (he1 : e1 ∈ rgSuffixes) (acc : List Entry) (f : DirEntry)
    (hblock : ∃ e ∈ acc, e.dir = d1 ∧ e.name = L ++ e1) :
    ∀ e ∈ processFile rgTPAExtensions d2 acc f,
      e ∈ acc ∨ ∀ ε ∈ rgSuffixes, e.name ≠ L ++ ε := by
  intro e he
  unfold processFile at he
  split at he
  · exact Or.inl he
  split at he
  · exact Or.inl he
  next hcont =>
    rcases List.mem_append.mp he with he | he
    · exact Or.inl he
    · rw [List.mem_singleton] at he
      subst he
      refine Or.inr ?_
      intro ε hε heq
      apply hcont
      obtain ⟨eb, heb, hebd, hebn⟩ := hblock
      obtain ⟨x1, hx1, hx1d⟩ : ∃ x1 ∈ rgTPAExtensions, x1.drop 1 = e1 := by
        have : e1 ∈ rgTPAExtensions.map fun p => p.drop 1 := rgSuffixes_eq ▸ he1
        obtain ⟨x1, hx1, hx1d⟩ := List.mem_map.mp this
        exact ⟨x1, hx1, hx1d⟩
      refine TPAListContainsFile_complete heb hx1 ?_ (hebd ▸ hd1.2)
      have hrem : RemoveExtensionAndNi (lowerStr f.cFileName) = L := by
        rw [show lowerStr f.cFileName = L ++ ε from heq]
        exact Remove_append_suffix hL hLni hε
      rw [hrem, hebn, hx1d]

/-- Cross-directory half of C4: when the same logical name occurs in two
scanned directories, the higher-priority directory's path is the one
retained, and no probe-set entry from the lower-priority directory enters
the list. -/
theorem first_dir_preferred
    {d1 d2 : Str} {l1 l2 : List DirEntry} {L e1 : Str} {f1 : DirEntry}
    (hd1 : wfDirPath d1)
    (hlist1 : ∀ f ∈ l1, wfFileName f.cFileName)
    (hdne : d1 ≠ d2)
    (hf1 : f1 ∈ l1) (hf1d : f1.isDirectory = false)
    (he1 : e1 ∈ rgSuffixes)
    (hf1n : lowerStr f1.cFileName = L ++ e1)
    (hone : ∀ g ∈ l1, (∃ ε ∈ rgSuffixes, lowerStr g.cFileName = L ++ ε) →
        lowerStr g.cFileName = L ++ e1)
    (hL : L ≠ []) (hLni : ¬ (".ni".data <:+ L)) :
    (∃ e ∈ buildTPA rgTPAExtensions [(d1, l1), (d2, l2)],
        e.dir = d1 ∧ e.name = L ++ e1) ∧
    (∀ e ∈ buildTPA rgTPAExtensions [(d1, l1), (d2, l2)],
        e.dir = d2 → ∀ ε ∈ rgSuffixes, e.name ≠ L ++ ε) := by
  have hrem1 : RemoveExtensionAndNi (lowerStr f1.cFileName) = L := by
    rw [hf1n]
    exact Remove_append_suffix hL hLni he1
  obtain ⟨x0, hx0, hx0d⟩ : ∃ x0 ∈ rgTPAExtensions, x0.drop 1 = e1 := by
    have : e1 ∈ rgTPAExtensions.map fun p => p.drop 1 := rgSuffixes_eq ▸ he1
    obtain ⟨x0, hx0, hx0d⟩ := List.mem_map.mp this
    exact ⟨x0, hx0, hx0d⟩
  -- Stage 1: the first directory's scan puts a probe-set entry on the list.
  have hT1 : ∃ e ∈ AddFilesFromDirectoryToTPAList d1 l1 rgTPAExtensions [],
      e.dir = d1 ∧ e.name = L ++ e1 := by
    have hstage1 : AddFilesFromDirectoryToTPAList d1 l1 rgTPAExtensions [] =
        buildTPA rgTPAExtensions [(d1, l1)] := rfl
    have hf1s : ((d1, f1) : Str × DirEntry) ∈ scanSeq rgTPAExtensions [(d1, l1)] := by
      unfold scanSeq
      refine List.mem_flatMap.mpr ⟨(d1, l1), List.mem_singleton.mpr rfl, ?_⟩
      refine List.mem_flatMap.mpr ⟨x0, hx0, ?_⟩
      refine List.mem_map.mpr ⟨f1, ?_, rfl⟩
      refine List.mem_filter.mpr ⟨hf1, ?_⟩
      unfold matchesPattern
      rw [hx0d, hf1n]
      exact List.isSuffixOf_iff_suffix.mpr (List.suffix_append L e1)
    obtain ⟨preA, postA, hsplit⟩ := List.append_of_mem hf1s
    have hinvpre : Stage1Inv d1 l1
        (preA.foldl (fun acc pf => processFile rgTPAExtensions pf.1 acc pf.2) []) := by
      refine foldl_inv (Stage1Inv d1 l1) _ _ ?_ [] (by intro e he; cases he)
      intro acc x hx hacc
      have hxm : x.1 = d1 ∧ x.2 ∈ l1 := mem_scanSeq_single (by
        rw [hsplit]
        exact List.mem_append_left _ hx)
      intro e he
      rw [show processFile rgTPAExtensions x.1 acc x.2 =
        processFile rgTPAExtensions d1 acc x.2 from by rw [hxm.1]] at he
      unfold processFile at he
      split at he
      · exact hacc e he
      next hgdir =>
      split at he
      · exact hacc e he
      · rcases List.mem_append.mp he with he | he
        · exact hacc e he
        · rw [List.mem_singleton] at he
          subst he
          refine ⟨rfl, x.2, hxm.2, ?_, rfl⟩
          cases hb : x.2.isDirectory with
          | false => rfl
          | true => exact absurd hb hgdir
    set SpreA := preA.foldl (fun acc pf => processFile rgTPAExtensions pf.1 acc pf.2) []
      with hSpreA
    have hP1 : ∃ e ∈ processFile rgTPAExtensions d1 SpreA f1,
        e.dir = d1 ∧ ∃ ε ∈ rgSuffixes, e.name = L ++ ε := by
      by_cases hcont : TPAListContainsFile (tpaCStr SpreA)
          (RemoveExtensionAndNi (lowerStr f1.cFileName)) rgTPAExtensions = true
      · have hmid : processFile rgTPAExtensions d1 SpreA f1 = SpreA := by
          unfold processFile
          rw [if_neg (by simp [hf1d]), if_pos hcont]
        have hwf : ∀ e ∈ SpreA, wfDirPath e.dir ∧ wfFileName e.name := by
          intro e he
          obtain ⟨hed, g, hg, -, hen⟩ := hinvpre e he
          exact ⟨hed ▸ hd1, hen ▸ lowerStr_wf (hlist1 g hg)⟩
        have hLwf : '\\' ∉ L ∧ ';' ∉ L := by
          have := RemoveExtensionAndNi_wf (lowerStr_wf (hlist1 f1 hf1))
          rwa [hrem1] at this
        have hcontL : TPAListContainsFile (tpaCStr SpreA) L rgTPAExtensions = true := by
          rw [← hrem1]
          exact hcont
        obtain ⟨e, he, x, hx, hxname⟩ := TPAListContainsFile_sound hwf hLwf
          (perm_exts_wf (List.Perm.refl _)) hcontL
        refine ⟨e, by rw [hmid]; exact he, (hinvpre e he).1, x.drop 1, ?_, hxname⟩
        rw [← rgSuffixes_eq]
        exact List.mem_map.mpr ⟨x, hx, rfl⟩
      · have hmid : processFile rgTPAExtensions d1 SpreA f1 =
            SpreA ++ [⟨d1, lowerStr f1.cFileName⟩] := by
          unfold processFile
          rw [if_neg (by simp [hf1d]), if_neg hcont]
        refine ⟨⟨d1, lowerStr f1.cFileName⟩, ?_, rfl, e1, he1, hf1n⟩
        rw [hmid]
        exact List.mem_append_right _ (List.mem_singleton.mpr rfl)
    obtain ⟨e, he, hed, ε, hε, hen⟩ := hP1
    obtain ⟨ex, hex⟩ := foldl_extend _
      (fun acc pf => processFile_extend rgTPAExtensions pf.1 acc pf.2) postA
      (processFile rgTPAExtensions d1 SpreA f1)
    have hefin : e ∈ (scanSeq rgTPAExtensions [(d1, l1)]).foldl
        (fun acc pf => processFile rgTPAExtensions pf.1 acc pf.2) [] := by
      rw [hsplit, List.foldl_append, List.foldl_cons]
      show e ∈ List.foldl (fun acc pf => processFile rgTPAExtensions pf.1 acc pf.2)
        (processFile rgTPAExtensions d1 SpreA f1) postA
      rw [hex]
      exact List.mem_append_left _ he
    have hememT1 : e ∈ AddFilesFromDirectoryToTPAList d1 l1 rgTPAExtensions [] := by
      rw [hstage1, buildTPA_eq_scan]
      exact hefin
    rcases AddFiles_entries_from e hememT1 with habs | ⟨-, g, hg, -, hgname⟩
    · cases habs
    · refine ⟨e, hememT1, hed, ?_⟩
      rw [hgname]
      exact hone g hg ⟨ε, hε, by rw [← hgname]; exact hen⟩
  -- Stage 2: the second directory's scan cannot add probe-set entries.
  have hbuild : buildTPA rgTPAExtensions [(d1, l1), (d2, l2)] =
      AddFilesFromDirectoryToTPAList d2 l2 rgTPAExtensions
        (AddFilesFromDirectoryToTPAList d1 l1 rgTPAExtensions []) := rfl
  obtain ⟨eb, hebT1, hebd, hebn⟩ := hT1
  have hQ : (∃ e ∈ buildTPA rgTPAExtensions [(d1, l1), (d2, l2)],
        e.dir = d1 ∧ e.name = L ++ e1) ∧
      ∀ e ∈ buildTPA rgTPAExtensions [(d1, l1), (d2, l2)],
        e ∈ AddFilesFromDirectoryToTPAList d1 l1 rgTPAExtensions [] ∨
          ∀ ε ∈ rgSuffixes, e.name ≠ L ++ ε := by
    rw [hbuild]
    unfold AddFilesFromDirectoryToTPAList
    refine foldl_inv (fun es =>
      (∃ e ∈ es, e.dir = d1 ∧ e.name = L ++ e1) ∧
      ∀ e ∈ es, e ∈ AddFilesFromDirectoryToTPAList d1 l1 rgTPAExtensions [] ∨
        ∀ ε ∈ rgSuffixes, e.name ≠ L ++ ε) _ rgTPAExtensions ?_ _
      ⟨⟨eb, hebT1, hebd, hebn⟩, fun e he => Or.inl he⟩
    intro acc1 pattern _hp hacc1
    refine foldl_inv (fun es =>
      (∃ e ∈ es, e.dir = d1 ∧ e.name = L ++ e1) ∧
      ∀ e ∈ es, e ∈ AddFilesFromDirectoryToTPAList d1 l1 rgTPAExtensions [] ∨
        ∀ ε ∈ rgSuffixes, e.name ≠ L ++ ε) _ _ ?_ acc1 hacc1
    intro acc2 f _hf hacc2
    constructor
    · obtain ⟨e, he, hed, hen⟩ := hacc2.1
      obtain ⟨ex, hex⟩ := processFile_extend rgTPAExtensions d2 acc2 f
      exact ⟨e, by rw [hex]; exact List.mem_append_left _ he, hed, hen⟩
    · intro e he
      rcases block_probe_step hd1 hL hLni he1 acc2 f hacc2.1 e he with hin | hout
      · exact hacc2.2 e hin
      · exact Or.inr hout
  refine ⟨hQ.1, ?_⟩
  intro e he hed2 ε hε heq
  rcases hQ.2 e he with hin | hout
  · rcases AddFiles_entries_from e hin with habs | ⟨hed1, -⟩
    · cases habs
    · exact hdne (hed1 ▸ hed2)
  · exact hout ε hε heq

/-- C4: deduplication is first-writer-wins over the scan order.  Within one
directory, a logical name present under both the optimized-image pattern and
the plain pattern keeps the optimized-image entry and never the plain one;
across two directories, the higher-priority directory's path is retained and
the lower-priority directory contributes no entry probing the same logical
name. -/
theorem C4_first_writer_wins :
    (∀ (d : Str) (listing : List DirEntry) (L : Str) (f1 : DirEntry),
      wfDirPath d → (∀ f ∈ listing, wfFileName f.cFileName) →
      f1 ∈ listing → f1.isDirectory = false →
      lowerStr f1.cFileName = L ++ ".ni.dll".data →
      L ≠ [] → ¬ (".ni".data <:+ L) →
      RetainNi d L (buildTPA rgTPAExtensions [(d, listing)])) ∧
    (∀ (d1 d2 : Str) (l1 l2 : List DirEntry) (L e1 : Str) (f1 : DirEntry),
      wfDirPath d1 → (∀ f ∈ l1, wfFileName f.cFileName) → d1 ≠ d2 →
      f1 ∈ l1 → f1.isDirectory = false → e1 ∈ rgSuffixes →
      lowerStr f1.cFileName = L ++ e1 →
      (∀ g ∈ l1, (∃ ε ∈ rgSuffixes, lowerStr g.cFileName = L ++ ε) →
        lowerStr g.cFileName = L ++ e1) →
      L ≠ [] → ¬ (".ni".data <:+ L) →
      (∃ e ∈ buildTPA rgTPAExtensions [(d1, l1), (d2, l2)],
        e.dir = d1 ∧ e.name = L ++ e1) ∧
      (∀ e ∈ buildTPA rgTPAExtensions [(d1, l1), (d2, l2)],
        e.dir = d2 → ∀ ε ∈ rgSuffixes, e.name ≠ L ++ ε)) := by
  constructor
  · intro d listing L f1 hd hlist hf1 hf1d hf1n hL hLni
    exact ni_preferred_same_dir hd hlist hf1 hf1d hf1n hL hLni
  · intro d1 d2 l1 l2 L e1 f1 hd1 hlist1 hdne hf1 hf1d he1 hf1n hone hL hLni
    exact first_dir_preferred hd1 hlist1 hdne hf1 hf1d he1 hf1n hone hL hLni

/-- Witness for C4: concrete same-directory and cross-directory scans. -/
theorem C4_witness :
    RetainNi "c:\\a\\".data "foo".data
      (buildTPA rgTPAExtensions
        [("c:\\a\\".data, [⟨"Foo.ni.dll".data, false⟩, ⟨"foo.dll".data, false⟩])]) ∧
    ((∃ e ∈ buildTPA rgTPAExtensions
        [("c:\\a\\".data, [⟨"foo.dll".data, false⟩]),
         ("c:\\b\\".data, [⟨"foo.ni.dll".data, false⟩])],
        e.dir = "c:\\a\\".data ∧ e.name = "foo".data ++ ".dll".data) ∧
     (∀ e ∈ buildTPA rgTPAExtensions
        [("c:\\a\\".data, [⟨"foo.dll".data, false⟩]),
         ("c:\\b\\".data, [⟨"foo.ni.dll".data, false⟩])],
        e.dir = "c:\\b\\".data → ∀ ε ∈ rgSuffixes, e.name ≠ "foo".data ++ ε)) := by
  constructor
  · exact C4_first_writer_wins.1 "c:\\a\\".data
      [⟨"Foo.ni.dll".data, false⟩, ⟨"foo.dll".data, false⟩] "foo".data
      ⟨"Foo.ni.dll".data, false⟩
      (by unfold wfDirPath; decide) (by unfold wfFileName; decide)
      (by decide) rfl (by decide) (by decide) (by decide)
  · exact C4_first_writer_wins.2 "c:\\a\\".data "c:\\b\\".data
      [⟨"foo.dll".data, false⟩] [⟨"foo.ni.dll".data, false⟩]
      "foo".data ".dll".data ⟨"foo.dll".data, false⟩
      (by unfold wfDirPath; decide) (by unfold wfFileName; decide)
      (by decide) (by decide) rfl (by decide) (by decide) (by decide)
      (by decide) (by decide)

/-- Witness for C10: in a directory whose first `*.dll` match is a
subdirectory, the first non-directory match becomes the head entry. -/
theorem C10_witness :
    TPAListContainsFile none "app".data rgTPAExtensions = false ∧
    ∃ rest, buildTPA rgTPAExtensions
      [("c:\\a\\".data, [⟨"sub.dll".data, true⟩, ⟨"App.dll".data, false⟩])] =
      ⟨"c:\\a\\".data, lowerStr "App.dll".data⟩ :: rest :=
  ⟨C10_empty_list_contains_nothing.1 "app".data rgTPAExtensions,
   C10_empty_list_contains_nothing.2 rgTPAExtensions
     [("c:\\a\\".data, [⟨"sub.dll".data, true⟩, ⟨"App.dll".data, false⟩])]
     [("c:\\a\\".data, ⟨"sub.dll".data, true⟩)] "c:\\a\\".data
     ⟨"App.dll".data, false⟩ [] (by decide) (by decide) rfl⟩

/-! The stateful view of `HostEnvironment::GetTpaList` (laziness and
caching). -/

/-- The environment one `GetTpaList` call reads: the optional value of
`%CORE_LIBRARIES%`, the runtime directory `m_coreCLRDirectoryPath`, and the
directory listings that the `FindFirstFile` enumeration reports. -/
structure TpaScanEnv where
  coreLibraries : Option Str
  coreCLRDirectoryPath : Str
  listingOf : Str → List DirEntry

/-- The directories one build pass scans, in order: `%CORE_LIBRARIES%` with
a backslash appended when the variable is set, then the CoreCLR
directory. -/
def scanDirs (env : TpaScanEnv) : List Str :=
  (match env.coreLibraries with
   | some v => [v ++ ['\\']]
   | none => []) ++ [env.coreCLRDirectoryPath]

/-- One execution of `GetTpaList`: when `m_tpaList.CStr()` is still null the
directories are scanned and the buffer is filled, otherwise the cached
buffer is returned.  The result carries the returned C string, the buffer
state after the call, and the number of directory scans
(`AddFilesFromDirectoryToTPAList` calls) the call performed. -/
def GetTpaList (env : TpaScanEnv) (tpa : List Entry) :
    Option Str × List Entry × Nat :=
  if tpaCStr tpa = none then
    let tpa' := (scanDirs env).foldl
      (fun acc d =>
        AddFilesFromDirectoryToTPAList d (env.listingOf d) rgTPAExtensions acc) tpa
    (tpaCStr tpa', tpa', (scanDirs env).length)
  else (tpaCStr tpa, tpa, 0)

/-- Counterexample to C7 as stated: when the scanned directories contain no
matching file, the buffer stays null and the second call scans the (one)
directory again instead of returning a cache without rescanning. -/
theorem C7_counterexample :
    (GetTpaList ⟨none, "c:\\r\\".data, fun _ => []⟩
      (GetTpaList ⟨none, "c:\\r\\".data, fun _ => []⟩ []).2.1).2.2 = 1 := by
  rfl

/-- C7 as amended: a second call always returns the same C string and the
same buffer state; a call on a buffer that already holds an entry performs
no directory scan and returns the cache; and the later-calls-do-not-rescan
clause holds provided the first build appended at least one entry.  (When
the build appends nothing the buffer stays null and every call rescans,
returning the same null result — the counterexample above.) -/
theorem C7_lazy_idempotent (env : TpaScanEnv) :
    ((GetTpaList env (GetTpaList env []).2.1).1 = (GetTpaList env []).1 ∧
     (GetTpaList env (GetTpaList env []).2.1).2.1 = (GetTpaList env []).2.1) ∧
    (∀ tpa : List Entry, tpa ≠ [] → GetTpaList env tpa = (tpaCStr tpa, tpa, 0)) ∧
    ((GetTpaList env []).2.1 ≠ [] →
      (GetTpaList env (GetTpaList env []).2.1).2.2 = 0) := by
  have hcached : ∀ tpa : List Entry, tpa ≠ [] → GetTpaList env tpa = (tpaCStr tpa, tpa, 0) := by
    intro tpa htpa
    unfold GetTpaList
    rw [if_neg]
    rw [tpaCStr, if_neg htpa]
    intro h
    cases h
  have hfirst : GetTpaList env [] =
      (tpaCStr ((scanDirs env).foldl
        (fun acc d =>
          AddFilesFromDirectoryToTPAList d (env.listingOf d) rgTPAExtensions acc) []),
       (scanDirs env).foldl
        (fun acc d =>
          AddFilesFromDirectoryToTPAList d (env.listingOf d) rgTPAExtensions acc) [],
       (scanDirs env).length) := by
    unfold GetTpaList
    rw [if_pos (show tpaCStr ([] : List Entry) = none from rfl)]
  by_cases hB : (scanDirs env).foldl
      (fun acc d =>
        AddFilesFromDirectoryToTPAList d (env.listingOf d) rgTPAExtensions acc) [] = []
  · refine ⟨?_, hcached, ?_⟩
    · rw [hfirst, hB, hfirst, hB]
      exact ⟨rfl, rfl⟩
    · intro hne
      rw [hfirst] at hne
      exact absurd hB hne
  · refine ⟨?_, hcached, ?_⟩
    · rw [hfirst, hcached _ hB]
      constructor
      · show tpaCStr _ = tpaCStr _
        rfl
      · rfl
    · intro _
      rw [hfirst, hcached _ hB]

/-- Witness for C7 (amended): with a directory holding one assembly the
first call fills the buffer and the second call performs zero scans; a call
on a non-empty buffer returns the cache unchanged. -/
theorem C7_witness :
    (GetTpaList ⟨none, "c:\\r\\".data, fun _ => [⟨"a.dll".data, false⟩]⟩
      (GetTpaList ⟨none, "c:\\r\\".data, fun _ => [⟨"a.dll".data, false⟩]⟩ []).2.1).2.2 = 0 ∧
    GetTpaList ⟨none, "c:\\r\\".data, fun _ => [⟨"a.dll".data, false⟩]⟩
      [⟨"c:\\r\\".data, "a.dll".data⟩] =
      (tpaCStr [⟨"c:\\r\\".data, "a.dll".data⟩], [⟨"c:\\r\\".data, "a.dll".data⟩], 0) :=
  ⟨(C7_lazy_idempotent ⟨none, "c:\\r\\".data, fun _ => [⟨"a.dll".data, false⟩]⟩).2.2
     (by intro h; cases h),
   (C7_lazy_idempotent ⟨none, "c:\\r\\".data, fun _ => [⟨"a.dll".data, false⟩]⟩).2.1
     [⟨"c:\\r\\".data, "a.dll".data⟩] (by intro h; cases h)⟩

/-! The execution orchestration: `TryRun` and `wmain`. -/

/-- `FAILED(hr)` for an HRESULT modelled as an integer. -/
def FAILED (hr : Int) : Bool := hr < 0

/-- The `DWORD` value of the C assignment `exitCode = -1`. -/
def DWORD_MINUS_ONE : Nat := 4294967295

/-- The host-interface calls `TryRun` makes through `ICLRRuntimeHost2`. -/
inductive HostCall where
  | setStartupFlags
  | authenticate
  | start
  | createAppDomain
  | executeAssembly
  | unloadAppDomain
  | stop
  | release
deriving DecidableEq

/-- The outcomes the host-interface calls of one run would return: the
HRESULT of each stage, and the exit code `ExecuteAssembly` stores through
its out parameter when it succeeds. -/
structure HostOracle where
  setStartupFlagsHr : Int
  authenticateHr : Int
  startHr : Int
  createAppDomainHr : Int
  executeHr : Int
  executeExitCode : Nat
  unloadHr : Int
  stopHr : Int
deriving DecidableEq

/-- What `TryRun` reports: its boolean return value, the final value of the
caller's `exitCode` variable, and the trace of host-interface calls
reached. -/
structure TryRunResult where
  success : Bool
  exitCode : Nat
  calls : List HostCall
deriving DecidableEq

/-- `TryRun`: `exitCode` starts at the `-1` sentinel; the managed exe must
load; the runtime host must be obtained; then startup flags, authentication,
start, domain creation, execution, unload, stop and release run in sequence,
and every `FAILED` HRESULT makes the function return `false` on the spot.
`ExecuteAssembly` overwrites `exitCode` only when it succeeds. -/
def TryRun (managedExeLoads : Bool) (host : Option HostOracle) : TryRunResult :=
  let exitCode := DWORD_MINUS_ONE
  if ¬managedExeLoads then ⟨false, exitCode, []⟩
  else
    match host with
    | none => ⟨false, exitCode, []⟩
    | some h =>
      if FAILED h.setStartupFlagsHr then ⟨false, exitCode, [.setStartupFlags]⟩
      else if FAILED h.authenticateHr then
        ⟨false, exitCode, [.setStartupFlags, .authenticate]⟩
      else if FAILED h.startHr then
        ⟨false, exitCode, [.setStartupFlags, .authenticate, .start]⟩
      else if FAILED h.createAppDomainHr then
        ⟨false, exitCode, [.setStartupFlags, .authenticate, .start, .createAppDomain]⟩
      else if FAILED h.executeHr then
        ⟨false, exitCode,
          [.setStartupFlags, .authenticate, .start, .createAppDomain, .executeAssembly]⟩
      else
        let exitCode := h.executeExitCode
        if FAILED h.unloadHr then
          ⟨false, exitCode,
            [.setStartupFlags, .authenticate, .start, .createAppDomain,
             .executeAssembly, .unloadAppDomain]⟩
        else if FAILED h.stopHr then
          ⟨false, exitCode,
            [.setStartupFlags, .authenticate, .start, .createAppDomain,
             .executeAssembly, .unloadAppDomain, .stop]⟩
        else
          ⟨true, exitCode,
            [.setStartupFlags, .authenticate, .start, .createAppDomain,
             .executeAssembly, .unloadAppDomain, .stop, .release]⟩

/-- `extension = wcsrchr(programPath, '.') + 1`: the characters after the
last dot, or `none` when the name holds no dot (the C code then adds one to
a null pointer and dereferences it: undefined behavior, modelled as the
absence of a result). -/
def afterLastDot (s : Str) : Option Str :=
  match s.reverse.dropWhile (fun c => c ≠ '.') with
  | [] => none
  | _ :: _ => some (s.reverse.takeWhile (fun c => c ≠ '.')).reverse

/-- The option-parsing loop of `wmain`: recognised tokens (`/_v`, `-_v`,
`/_d`, `-_d`, `/_h`, `-_h`, case-insensitively via `_wcsicmp`) update the
flags; the first unrecognised token stops parsing and everything from it on
is forwarded. -/
def parseOptions : List Str → Bool → Bool → Bool → (Bool × Bool × Bool) × List Str
  | [], v, d, h => ((v, d, h), [])
  | a :: rest, v, d, h =>
    if lowerStr a = "/_v".data ∨ lowerStr a = "-_v".data then
      parseOptions rest true d h
    else if lowerStr a = "/_d".data ∨ lowerStr a = "-_d".data then
      parseOptions rest v true h
    else if lowerStr a = "/_h".data ∨ lowerStr a = "-_h".data then
      parseOptions rest v d true
    else ((v, d, h), a :: rest)

/-- What the process run reports: the `int` returned from `wmain` and the
success flag of the final `Execution succeeded/failed` log line (`none` on
the early returns that never reach `TryRun`). -/
structure WmainResult where
  exit : Int
  executionSucceeded : Option Bool
deriving DecidableEq

/-- The `DWORD` to `int` conversion of the final `return exitCode`. -/
def dwordToInt (d : Nat) : Int :=
  if d < 2 ^ 31 then (d : Int) else (d : Int) - 2 ^ 32

/-- `wmain`: require the `exe` extension on `argv[0]` (exact `wcscmp`),
parse the leading options, print usage and return `-1` when help was
requested, otherwise run `TryRun` and return its exit code as the process
exit code. -/
def wmain (argv0 : Str) (args : List Str) (managedExeLoads : Bool)
    (host : Option HostOracle) : Option WmainResult :=
  match afterLastDot argv0 with
  | none => none
  | some ext =>
    if ext ≠ "exe".data then some ⟨-1, none⟩
    else if (parseOptions args false false false).1.2.2 then some ⟨-1, none⟩
    else
      let r := TryRun managedExeLoads host
      some ⟨dwordToInt r.exitCode, some r.success⟩

/-- Counterexample to C2 as stated: with every stage up to domain creation
succeeding and `ExecuteAssembly` failing, `TryRun` returns immediately —
the domain was created, yet neither `UnloadAppDomain` nor `Stop` is
reached. -/
theorem C2_counterexample :
    FAILED (HostOracle.mk 0 0 0 0 (-2147467259) 0 0 0).executeHr = true ∧
    HostCall.createAppDomain ∈
      (TryRun true (some (HostOracle.mk 0 0 0 0 (-2147467259) 0 0 0))).calls ∧
    HostCall.unloadAppDomain ∉
      (TryRun true (some (HostOracle.mk 0 0 0 0 (-2147467259) 0 0 0))).calls ∧
    HostCall.stop ∉
      (TryRun true (some (HostOracle.mk 0 0 0 0 (-2147467259) 0 0 0))).calls ∧
    (TryRun true (some (HostOracle.mk 0 0 0 0 (-2147467259) 0 0 0))).success = false := by
  decide

/-- C2 as amended: once the domain has been created, the teardown steps run
only when the execute step succeeds — a failing `ExecuteAssembly` returns
immediately and skips both unload and stop — while any failure, including a
failure during teardown, is still reported to the caller as a failed
run. -/
theorem C2_teardown (h : HostOracle)
    (hset : FAILED h.setStartupFlagsHr = false)
    (hauth : FAILED h.authenticateHr = false)
    (hstart : FAILED h.startHr = false)
    (hcreate : FAILED h.createAppDomainHr = false) :
    (FAILED h.executeHr = true →
      (TryRun true (some h)).success = false ∧
      HostCall.unloadAppDomain ∉ (TryRun true (some h)).calls ∧
      HostCall.stop ∉ (TryRun true (some h)).calls) ∧
    (FAILED h.executeHr = false →
      HostCall.unloadAppDomain ∈ (TryRun true (some h)).calls ∧
      (FAILED h.unloadHr = true →
        (TryRun true (some h)).success = false ∧
        HostCall.stop ∉ (TryRun true (some h)).calls) ∧
      (FAILED h.unloadHr = false →
        HostCall.stop ∈ (TryRun true (some h)).calls ∧
        (FAILED h.stopHr = true → (TryRun true (some h)).success = false))) := by
  constructor
  · intro hexec
    simp [TryRun, hset, hauth, hstart, hcreate, hexec]
  · intro hexec
    by_cases hunload : FAILED h.unloadHr = true
    · simp [TryRun, hset, hauth, hstart, hcreate, hexec, hunload]
    · rw [Bool.not_eq_true] at hunload
      by_cases hstop : FAILED h.stopHr = true
      · simp [TryRun, hset, hauth, hstart, hcreate, hexec, hunload, hstop]
      · rw [Bool.not_eq_true] at hstop
        simp [TryRun, hset, hauth, hstart, hcreate, hexec, hunload, hstop]

/-- Witness for C2 (amended), at a run whose unload fails after a
successful execution: unload is reached, the run is flagged failed, and stop
is skipped. -/
theorem C2_witness :
    HostCall.unloadAppDomain ∈
      (TryRun true (some (HostOracle.mk 0 0 0 0 0 7 (-1) 0))).calls ∧
    (TryRun true (some (HostOracle.mk 0 0 0 0 0 7 (-1) 0))).success = false ∧
    HostCall.stop ∉
      (TryRun true (some (HostOracle.mk 0 0 0 0 0 7 (-1) 0))).calls :=
  have h := (C2_teardown (HostOracle.mk 0 0 0 0 0 7 (-1) 0)
    (by decide) (by decide) (by decide) (by decide)).2 (by decide)
  ⟨h.1, (h.2.1 (by decide)).1, (h.2.1 (by decide)).2⟩

theorem TryRun_fail_before_capture (m : Bool) (host : Option HostOracle)
    (hfail : m = false ∨ host = none ∨
      ∃ h, host = some h ∧
        (FAILED h.setStartupFlagsHr = true ∨ FAILED h.authenticateHr = true ∨
         FAILED h.startHr = true ∨ FAILED h.createAppDomainHr = true ∨
         FAILED h.executeHr = true)) :
    (TryRun m host).exitCode = DWORD_MINUS_ONE ∧ (TryRun m host).success = false := by
  rcases hfail with rfl | rfl | ⟨h, rfl, hor⟩
  · simp [TryRun]
  · cases m <;> simp [TryRun]
  · cases m with
    | false => simp [TryRun]
    | true =>
      by_cases h1 : FAILED h.setStartupFlagsHr = true
      · simp [TryRun, h1]
      · rw [Bool.not_eq_true] at h1
        by_cases h2 : FAILED h.authenticateHr = true
        · simp [TryRun, h1, h2]
        · rw [Bool.not_eq_true] at h2
          by_cases h3 : FAILED h.startHr = true
          · simp [TryRun, h1, h2, h3]
          · rw [Bool.not_eq_true] at h3
            by_cases h4 : FAILED h.createAppDomainHr = true
            · simp [TryRun, h1, h2, h3, h4]
            · rw [Bool.not_eq_true] at h4
              by_cases h5 : FAILED h.executeHr = true
              · simp [TryRun, h1, h2, h3, h4, h5]
              · rw [Bool.not_eq_true] at h5
                exfalso
                rcases hor with hx | hx | hx | hx | hx
                · rw [h1] at hx; cases hx
                · rw [h2] at hx; cases hx
                · rw [h3] at hx; cases hx
                · rw [h4] at hx; cases hx
                · rw [h5] at hx; cases hx

/-- C5: on a fully successful run the process exit code equals the exit
code returned by the hosted program; the fixed `-1` sentinel is returned
when the executable's name does not end in the `exe` extension, when help
was requested, and when any orchestration stage fails before the hosted
program's exit code was captured. -/
theorem C5_exit_codes (argv0 : Str) (args : List Str) (m : Bool)
    (host : Option HostOracle) (ext : Str)
    (hext : afterLastDot argv0 = some ext) :
    (ext ≠ "exe".data → wmain argv0 args m host = some ⟨-1, none⟩) ∧
    (ext = "exe".data → (parseOptions args false false false).1.2.2 = true →
      wmain argv0 args m host = some ⟨-1, none⟩) ∧
    (ext = "exe".data → (parseOptions args false false false).1.2.2 = false →
      (m = false ∨ host = none ∨
        ∃ h, host = some h ∧
          (FAILED h.setStartupFlagsHr = true ∨ FAILED h.authenticateHr = true ∨
           FAILED h.startHr = true ∨ FAILED h.createAppDomainHr = true ∨
           FAILED h.executeHr = true)) →
      wmain argv0 args m host = some ⟨-1, some false⟩) ∧
    (ext = "exe".data → (parseOptions args false false false).1.2.2 = false →
      ∀ h : HostOracle, m = true → host = some h →
        FAILED h.setStartupFlagsHr = false → FAILED h.authenticateHr = false →
        FAILED h.startHr = false → FAILED h.createAppDomainHr = false →
        FAILED h.executeHr = false → FAILED h.unloadHr = false →
        FAILED h.stopHr = false →
        wmain argv0 args m host =
          some ⟨dwordToInt h.executeExitCode, some true⟩) := by
  refine ⟨?_, ?_, ?_, ?_⟩
  · intro hne
    simp only [wmain, hext]
    rw [if_pos hne]
  · intro hrfl hhelp
    simp only [wmain, hext]
    rw [if_neg (by rw [hrfl]; simp), if_pos hhelp]
  · intro hrfl hhelp hfail
    obtain ⟨hec, hsucc⟩ := TryRun_fail_before_capture m host hfail
    simp only [wmain, hext]
    rw [if_neg (by rw [hrfl]; simp), if_neg (by rw [hhelp]; simp)]
    rw [show (TryRun m host).exitCode = DWORD_MINUS_ONE from hec, hsucc]
    rw [show dwordToInt DWORD_MINUS_ONE = -1 from by decide]
  · intro hrfl hhelp h hm hhost h1 h2 h3 h4 h5 h6 h7
    subst hm
    subst hhost
    simp only [wmain, hext]
    rw [if_neg (by rw [hrfl]; simp), if_neg (by rw [hhelp]; simp)]
    simp [TryRun, h1, h2, h3, h4, h5, h6, h7]

/-- Witness for C5: a wrong extension, a help request, an early failure and
a fully successful run, at concrete inputs. -/
theorem C5_witness :
    wmain "foo.bat".data [] true (some (HostOracle.mk 0 0 0 0 0 42 0 0)) =
      some ⟨-1, none⟩ ∧
    wmain "foo.exe".data ["/_H".data] true (some (HostOracle.mk 0 0 0 0 0 42 0 0)) =
      some ⟨-1, none⟩ ∧
    wmain "foo.exe".data [] true (some (HostOracle.mk 0 0 0 (-1) 0 42 0 0)) =
      some ⟨-1, some false⟩ ∧
    wmain "foo.exe".data [] true (some (HostOracle.mk 0 0 0 0 0 42 0 0)) =
      some ⟨dwordToInt 42, some true⟩ :=
  ⟨(C5_exit_codes "foo.bat".data [] true (some (HostOracle.mk 0 0 0 0 0 42 0 0))
      "bat".data (by decide)).1 (by decide),
   (C5_exit_codes "foo.exe".data ["/_H".data] true
      (some (HostOracle.mk 0 0 0 0 0 42 0 0)) "exe".data (by decide)).2.1
      rfl (by decide),
   (C5_exit_codes "foo.exe".data [] true (some (HostOracle.mk 0 0 0 (-1) 0 42 0 0))
      "exe".data (by decide)).2.2.1 rfl (by decide)
      (Or.inr (Or.inr ⟨_, rfl, Or.inr (Or.inr (Or.inr (Or.inl (by decide))))⟩)),
   (C5_exit_codes "foo.exe".data [] true (some (HostOracle.mk 0 0 0 0 0 42 0 0))
      "exe".data (by decide)).2.2.2 rfl (by decide) _ rfl rfl
      (by decide) (by decide) (by decide) (by decide) (by decide) (by decide)
      (by decide)⟩

/-- C6: when execution succeeds (the exit code is captured) and the
subsequent domain unload fails, the run is reported as failed while the
process exit code is still the captured exit code, not the `-1`
sentinel. -/
theorem C6_unload_failure_keeps_exit_code (argv0 : Str) (args : List Str)
    (h : HostOracle)
    (hext : afterLastDot argv0 = some "exe".data)
    (hhelp : (parseOptions args false false false).1.2.2 = false)
    (h1 : FAILED h.setStartupFlagsHr = false)
    (h2 : FAILED h.authenticateHr = false)
    (h3 : FAILED h.startHr = false)
    (h4 : FAILED h.createAppDomainHr = false)
    (h5 : FAILED h.executeHr = false)
    (hunload : FAILED h.unloadHr = true)
    (hlt : h.executeExitCode < 2 ^ 32)
    (hne : h.executeExitCode ≠ DWORD_MINUS_ONE) :
    wmain argv0 args true (some h) =
      some ⟨dwordToInt h.executeExitCode, some false⟩ ∧
    dwordToInt h.executeExitCode ≠ -1 := by
  constructor
  · simp only [wmain, hext]
    rw [if_neg (by simp), if_neg (by rw [hhelp]; simp)]
    simp [TryRun, h1, h2, h3, h4, h5, hunload]
  · have hne' : h.executeExitCode ≠ 4294967295 := hne
    unfold dwordToInt
    split_ifs with h31
    · omega
    · omega

/-- Witness for C6: a concrete run whose unload fails after the hosted
program returned 42. -/
theorem C6_witness :
    wmain "foo.exe".data [] true (some (HostOracle.mk 0 0 0 0 0 42 (-7) 0)) =
      some ⟨dwordToInt 42, some false⟩ ∧
    dwordToInt (HostOracle.mk 0 0 0 0 0 42 (-7) 0).executeExitCode ≠ -1 :=
  C6_unload_failure_keeps_exit_code "foo.exe".data []
    (HostOracle.mk 0 0 0 0 0 42 (-7) 0) (by decide) (by decide)
    (by decide) (by decide) (by decide) (by decide) (by decide) (by decide)
    (by decide) (by decide)

/-! Runtime-library discovery: `HostEnvironment::TryLoadCoreCLR` and the
`HostEnvironment` constructor. -/

/-- The name of the CoreCLR native runtime DLL. -/
def coreCLRDll : Str := "CoreCLR.dll".data

/-- A loaded module as the OS loader reports it: `GetModuleFileNameW` on its
handle yields `path`, the actual load path (which the loader's search-path
resolution may have chosen). -/
structure Module where
  path : Str
deriving DecidableEq

/-- The OS-loader behavior a discovery run observes: `loadLibrary p` models
`LoadLibraryExW(p, NULL, 0)` and `pinOk p` the success of the
`GET_MODULE_HANDLE_EX_FLAG_PIN` call on the same path. -/
structure LoaderOracle where
  loadLibrary : Str → Option Module
  pinOk : Str → Bool

/-- `HostEnvironment::TryLoadCoreCLR`: append `CoreCLR.dll` to the given
directory, load, pin; `none` when the load or the pin fails (a failed pin
returns null without retaining the handle). -/
def TryLoadCoreCLR (ld : LoaderOracle) (directoryPath : Str) : Option Module :=
  match ld.loadLibrary (directoryPath ++ coreCLRDll) with
  | none => none
  | some m => if ld.pinOk (directoryPath ++ coreCLRDll) then some m else none

/-- The constructor's backslash-search loop: keep everything up to and
including the last backslash; a path without one is left whole (the loop
then never writes a terminator into the buffer). -/
def dirUpToLastBackslash (p : Str) : Str :=
  match p.reverse.dropWhile (fun c => c ≠ '\\') with
  | [] => p
  | rest => rest.reverse

/-- The discovery outcome of the `HostEnvironment` constructor: the module
handle kept in `m_coreCLRModule`, the recorded `m_coreCLRDirectoryPath`
(empty when nothing was loaded), and the directories passed to
`TryLoadCoreCLR`, in order. -/
structure CtorResult where
  coreCLRModule : Option Module
  coreCLRDirectoryPath : Str
  attempts : List Str
deriving DecidableEq

/-- The discovery part of `HostEnvironment::HostEnvironment`: when
`%CORE_ROOT%` is set (`_wgetenv_s` succeeds with a positive size — on
Windows a set variable is non-empty), try it first with a backslash
appended; fall back to the host executable's directory when that attempt
failed or the variable is unset; on success record the directory derived
from the actually loaded module's path. -/
def hostEnvironmentCtor (ld : LoaderOracle) (coreRoot : Option Str)
    (hostDirectoryPath : Str) : CtorResult :=
  match coreRoot with
  | some v =>
    match TryLoadCoreCLR ld (v ++ ['\\']) with
    | some m => ⟨some m, dirUpToLastBackslash m.path, [v ++ ['\\']]⟩
    | none =>
      match TryLoadCoreCLR ld hostDirectoryPath with
      | some m => ⟨some m, dirUpToLastBackslash m.path,
          [v ++ ['\\'], hostDirectoryPath]⟩
      | none => ⟨none, [], [v ++ ['\\'], hostDirectoryPath]⟩
  | none =>
    match TryLoadCoreCLR ld hostDirectoryPath with
    | some m => ⟨some m, dirUpToLastBackslash m.path, [hostDirectoryPath]⟩
    | none => ⟨none, [], [hostDirectoryPath]⟩

/-- `HostEnvironment::GetCLRRuntimeHost` returns null immediately when no
CoreCLR module was loaded; otherwise it yields whatever the
`GetProcAddress`/`GetCLRRuntimeHost` acquisition produced. -/
def GetCLRRuntimeHost (coreCLRModule : Option Module)
    (acquired : Option HostOracle) : Option HostOracle :=
  match coreCLRModule with
  | none => none
  | some _ => acquired

/-- C8: the override directory is attempted first exactly when `CORE_ROOT`
is set (and hence non-empty), with fallback to the host directory when the
override attempt fails; the canonical runtime directory is derived from the
actually loaded module's path, and the loaded module is the result of the
first successful attempt; when both attempts fail no handle is retained, so
host acquisition yields null and the run fails with no host call made. -/
theorem C8_runtime_discovery (ld : LoaderOracle) (coreRoot : Option Str)
    (hostDir : Str) (_henv : ∀ s, coreRoot = some s → s ≠ []) :
    ((∀ s, coreRoot = some s →
       (hostEnvironmentCtor ld coreRoot hostDir).attempts =
         (s ++ ['\\']) ::
           (if TryLoadCoreCLR ld (s ++ ['\\']) = none then [hostDir] else [])) ∧
     (coreRoot = none →
       (hostEnvironmentCtor ld coreRoot hostDir).attempts = [hostDir])) ∧
    (∀ m, (hostEnvironmentCtor ld coreRoot hostDir).coreCLRModule = some m →
       (hostEnvironmentCtor ld coreRoot hostDir).coreCLRDirectoryPath =
         dirUpToLastBackslash m.path ∧
       ∃ dir ∈ (hostEnvironmentCtor ld coreRoot hostDir).attempts,
         TryLoadCoreCLR ld dir = some m) ∧
    ((∀ dir ∈ (hostEnvironmentCtor ld coreRoot hostDir).attempts,
        TryLoadCoreCLR ld dir = none) →
      (hostEnvironmentCtor ld coreRoot hostDir).coreCLRModule = none ∧
      ∀ acquired mload,
        TryRun mload (GetCLRRuntimeHost
          (hostEnvironmentCtor ld coreRoot hostDir).coreCLRModule acquired) =
          ⟨false, DWORD_MINUS_ONE, []⟩) := by
  rcases coreRoot with _ | v
  · cases h2 : TryLoadCoreCLR ld hostDir with
    | none =>
      refine ⟨⟨by rintro s ⟨⟩, fun _ => ?_⟩, ?_, ?_⟩
      · simp [hostEnvironmentCtor, h2]
      · intro m hm
        simp [hostEnvironmentCtor, h2] at hm
      · intro _
        refine ⟨by simp [hostEnvironmentCtor, h2], ?_⟩
        intro acquired mload
        simp only [hostEnvironmentCtor, h2]
        cases mload <;> rfl
    | some m0 =>
      refine ⟨⟨by rintro s ⟨⟩, fun _ => ?_⟩, ?_, ?_⟩
      · simp [hostEnvironmentCtor, h2]
      · intro m hm
        simp only [hostEnvironmentCtor, h2] at hm ⊢
        cases hm
        exact ⟨rfl, hostDir, List.mem_singleton.mpr rfl, h2⟩
      · intro hall
        exfalso
        have := hall hostDir (by simp [hostEnvironmentCtor, h2])
        rw [h2] at this
        cases this
  · cases h1 : TryLoadCoreCLR ld (v ++ ['\\']) with
    | some m0 =>
      refine ⟨⟨?_, by rintro ⟨⟩⟩, ?_, ?_⟩
      · rintro s hs
        cases hs
        simp [hostEnvironmentCtor, h1]
      · intro m hm
        simp only [hostEnvironmentCtor, h1] at hm ⊢
        cases hm
        exact ⟨rfl, v ++ ['\\'], List.mem_singleton.mpr rfl, h1⟩
      · intro hall
        exfalso
        have := hall (v ++ ['\\']) (by simp [hostEnvironmentCtor, h1])
        rw [h1] at this
        cases this
    | none =>
      cases h2 : TryLoadCoreCLR ld hostDir with
      | some m0 =>
        refine ⟨⟨?_, by rintro ⟨⟩⟩, ?_, ?_⟩
        · rintro s hs
          cases hs
          simp [hostEnvironmentCtor, h1, h2]
        · intro m hm
          simp only [hostEnvironmentCtor, h1, h2] at hm ⊢
          cases hm
          exact ⟨rfl, hostDir, by simp, h2⟩
        · intro hall
          exfalso
          have := hall hostDir (by simp [hostEnvironmentCtor, h1, h2])
          rw [h2] at this
          cases this
      | none =>
        refine ⟨⟨?_, by rintro ⟨⟩⟩, ?_, ?_⟩
        · rintro s hs
          cases hs
          simp [hostEnvironmentCtor, h1, h2]
        · intro m hm
          simp [hostEnvironmentCtor, h1, h2] at hm
        · intro _
          refine ⟨by simp [hostEnvironmentCtor, h1, h2], ?_⟩
          intro acquired mload
          simp only [hostEnvironmentCtor, h1, h2]
          cases mload <;> rfl

/-- Witness for C8: an override load that resolves to a different actual
path, and a total failure that reaches no host call. -/
theorem C8_witness :
    ((hostEnvironmentCtor
        ⟨fun p => if p = "c:\\cr\\CoreCLR.dll".data
            then some ⟨"d:\\real\\CoreCLR.dll".data⟩ else none, fun _ => true⟩
        (some "c:\\cr".data) "c:\\h\\".data).attempts =
      ("c:\\cr".data ++ ['\\']) ::
        (if TryLoadCoreCLR
            ⟨fun p => if p = "c:\\cr\\CoreCLR.dll".data
                then some ⟨"d:\\real\\CoreCLR.dll".data⟩ else none, fun _ => true⟩
            ("c:\\cr".data ++ ['\\']) = none
         then ["c:\\h\\".data] else [])) ∧
    ((hostEnvironmentCtor
        ⟨fun p => if p = "c:\\cr\\CoreCLR.dll".data
            then some ⟨"d:\\real\\CoreCLR.dll".data⟩ else none, fun _ => true⟩
        (some "c:\\cr".data) "c:\\h\\".data).coreCLRDirectoryPath =
      dirUpToLastBackslash "d:\\real\\CoreCLR.dll".data ∧
      ∃ dir ∈ (hostEnvironmentCtor
        ⟨fun p => if p = "c:\\cr\\CoreCLR.dll".data
            then some ⟨"d:\\real\\CoreCLR.dll".data⟩ else none, fun _ => true⟩
        (some "c:\\cr".data) "c:\\h\\".data).attempts,
        TryLoadCoreCLR
          ⟨fun p => if p = "c:\\cr\\CoreCLR.dll".data
              then some ⟨"d:\\real\\CoreCLR.dll".data⟩ else none, fun _ => true⟩
          dir = some ⟨"d:\\real\\CoreCLR.dll".data⟩) ∧
    TryRun true (GetCLRRuntimeHost
      (hostEnvironmentCtor ⟨fun _ => none, fun _ => true⟩ none "c:\\h\\".data).coreCLRModule
      none) = ⟨false, DWORD_MINUS_ONE, []⟩ :=
  ⟨(C8_runtime_discovery
      ⟨fun p => if p = "c:\\cr\\CoreCLR.dll".data
          then some ⟨"d:\\real\\CoreCLR.dll".data⟩ else none, fun _ => true⟩
      (some "c:\\cr".data) "c:\\h\\".data
      (by rintro s hs; cases hs; decide)).1.1 "c:\\cr".data rfl,
   (C8_runtime_discovery
      ⟨fun p => if p = "c:\\cr\\CoreCLR.dll".data
          then some ⟨"d:\\real\\CoreCLR.dll".data⟩ else none, fun _ => true⟩
      (some "c:\\cr".data) "c:\\h\\".data
      (by rintro s hs; cases hs; decide)).2.1
      ⟨"d:\\real\\CoreCLR.dll".data⟩ (by decide),
   ((C8_runtime_discovery ⟨fun _ => none, fun _ => true⟩ none "c:\\h\\".data
      (by rintro s hs; cases hs)).2.2 (by decide)).2 none true⟩

/-! The `CreateAppDomainWithManager` property arrays. -/

/-- The `property_keys` array exactly as the source declares it: the fourth
initializer `W("NATIVE_DLL_SEARCH_DIRECTORIES")` has no comma after it, so
in C the two adjacent wide-string literals concatenate into a single fourth
array element. -/
def property_keys : List String :=
  ["TRUSTED_PLATFORM_ASSEMBLIES",
   "APP_PATHS",
   "APP_NI_PATHS",
   "NATIVE_DLL_SEARCH_DIRECTORIES" ++ "AppDomainCompatSwitch"]

/-- The `property_values` array: the TPA list, the application path, the
`appPath;appPath` optimized-image probe list, and the native search
directories, in that order. -/
def property_values (tpaList appPath appNiPath nativeDllSearchDirs : String) :
    List String :=
  [tpaList, appPath, appNiPath, nativeDllSearchDirs]

/-- The property count `TryRun` passes to `CreateAppDomainWithManager`:
`sizeof(property_keys)/sizeof(wchar_t*)`. -/
def propertyCount : Nat := property_keys.length

/-- Counterexample to C3 as stated: the fourth key is not
`NATIVE_DLL_SEARCH_DIRECTORIES` — that name does not occur among the keys at
all, because the missing comma merged it with `AppDomainCompatSwitch`. -/
theorem C3_counterexample :
    property_keys.length = 4 ∧
    property_keys.get? 3 ≠ some "NATIVE_DLL_SEARCH_DIRECTORIES" ∧
    "NATIVE_DLL_SEARCH_DIRECTORIES" ∉ property_keys := by
  decide

/-- C3 as amended: the domain-creation call passes exactly four named
properties; the first three keys are the trust list, the application probe
paths and the optimized-image probe paths, each paired with its computed
value; the fourth key is the merged string
`NATIVE_DLL_SEARCH_DIRECTORIESAppDomainCompatSwitch` (an authoring defect:
a missing list separator), paired with the native-library search
directories. -/
theorem C3_four_properties (tpaList appPath appNiPath nativeDllSearchDirs : String) :
    propertyCount = 4 ∧
    property_keys.zip
      (property_values tpaList appPath appNiPath nativeDllSearchDirs) =
      [("TRUSTED_PLATFORM_ASSEMBLIES", tpaList),
       ("APP_PATHS", appPath),
       ("APP_NI_PATHS", appNiPath),
       ("NATIVE_DLL_SEARCH_DIRECTORIESAppDomainCompatSwitch",
         nativeDllSearchDirs)] :=
  ⟨rfl, rfl⟩

/-! The dynamically expanding `StringBuffer` that holds the TPA list. -/

/-- `wcsncpy_s(dest + offset, ..., src, src.length)`: write the source
characters at the offset and one null terminator after them; the rest of
the destination is untouched. -/
def writeAt (dest : Str) (offset : Nat) (src : Str) : Str :=
  dest.take offset ++ src ++ ['\x00'] ++ dest.drop (offset + src.length + 1)

/-- `StringBuffer`: the heap buffer (null until the first `Append`), its
capacity in characters, and the stored length.  A fresh `new wchar_t[n]`
allocation is uninitialized in C; its contents are modelled as null
characters, which no property below depends on. -/
structure StringBuffer where
  m_buffer : Option Str
  m_capacity : Nat
  m_length : Nat
deriving DecidableEq

/-- The string contents a `StringBuffer` holds: its first `m_length`
characters. -/
def StringBuffer.contents (b : StringBuffer) : Str :=
  (b.m_buffer.getD []).take b.m_length

/-- The capacity available to an `Append` call before any doubling: the
current capacity, or `m_defaultSize = 4096` for the initial allocation on
first use. -/
def StringBuffer.baseCapacity (b : StringBuffer) : Nat :=
  match b.m_buffer with
  | none => 4096
  | some _ => b.m_capacity

/-- Well-formedness of a reachable buffer: null means empty with zero
capacity; an allocated buffer has exactly `m_capacity` characters, with the
stored length strictly below it (the terminator fits). -/
def StringBuffer.WF (b : StringBuffer) : Prop :=
  match b.m_buffer with
  | none => b.m_capacity = 0 ∧ b.m_length = 0
  | some bu => bu.length = b.m_capacity ∧ b.m_length < b.m_capacity

/-- The common path of `StringBuffer::Append` once a buffer exists: when
`m_length + strLen + 1` exceeds the capacity, allocate a buffer of twice
the capacity and copy the first `m_length` characters across
(`wcsncpy_s(newBuffer, newCapacity, m_buffer, m_length)`); then copy the
appended characters at `m_length`
(`wcsncpy_s(m_buffer + m_length, m_capacity - m_length, str, strLen)`). -/
def appendTo (buf : Str) (cap len : Nat) (str : Str) : StringBuffer :=
  if len + str.length + 1 > cap then
    ⟨some (writeAt (writeAt (List.replicate (cap * 2) '\x00') 0 (buf.take len))
        len str),
     cap * 2, len + str.length⟩
  else ⟨some (writeAt buf len str), cap, len + str.length⟩

/-- `StringBuffer::Append(str, strLen)`: allocate `m_defaultSize = 4096`
characters on first use, then run the common path. -/
def StringBuffer.Append (b : StringBuffer) (str : Str) : StringBuffer :=
  match b.m_buffer with
  | none => appendTo (List.replicate 4096 '\x00') 4096 b.m_length str
  | some bu => appendTo bu b.m_capacity b.m_length str

theorem take_writeAt {dest : Str} {offset : Nat} (src : Str)
    (h : offset ≤ dest.length) :
    (writeAt dest offset src).take (offset + src.length) =
      dest.take offset ++ src := by
  have hassoc : writeAt dest offset src =
      (dest.take offset ++ src) ++
        (['\x00'] ++ dest.drop (offset + src.length + 1)) := by
    simp [writeAt]
  rw [hassoc, List.take_left' (by
    rw [List.length_append, List.length_take]
    omega)]

theorem length_writeAt {dest : Str} {offset : Nat} (src : Str)
    (h : offset + src.length + 1 ≤ dest.length) :
    (writeAt dest offset src).length = dest.length := by
  simp only [writeAt, List.length_append, List.length_take, List.length_drop,
    List.length_cons, List.length_nil]
  omega

theorem appendTo_spec (buf : Str) (cap len : Nat) (str : Str)
    (hbuf : buf.length = cap) (hlen : len < cap)
    (hfit : len + str.length + 1 ≤ cap * 2) :
    (appendTo buf cap len str).contents = buf.take len ++ str ∧
    ((appendTo buf cap len str).m_capacity = cap ∨
     (appendTo buf cap len str).m_capacity = cap * 2) ∧
    (appendTo buf cap len str).WF := by
  unfold appendTo
  split_ifs with hgrow
  · -- one doubling
    have hreplen : (List.replicate (cap * 2) '\x00').length = cap * 2 := by
      simp
    have hcopy : (writeAt (List.replicate (cap * 2) '\x00') 0 (buf.take len)) =
        buf.take len ++ ['\x00'] ++
          (List.replicate (cap * 2) '\x00').drop ((buf.take len).length + 1) := by
      simp [writeAt]
    have htklen : (buf.take len).length = len := by
      rw [List.length_take]
      omega
    have hbig : (writeAt (List.replicate (cap * 2) '\x00') 0 (buf.take len)).length =
        cap * 2 := by
      rw [length_writeAt]
      · exact hreplen
      · rw [hreplen, htklen]
        omega
    have htake : (writeAt (List.replicate (cap * 2) '\x00') 0 (buf.take len)).take len =
        buf.take len := by
      rw [hcopy, List.append_assoc, List.take_left' htklen]
    refine ⟨?_, Or.inr rfl, ?_⟩
    · show (writeAt _ len str).take (len + str.length) = _
      rw [take_writeAt str (by rw [hbig]; omega), htake]
    · refine ⟨?_, show len + str.length < cap * 2 by omega⟩
      rw [length_writeAt str (by rw [hbig]; omega)]
      exact hbig
  · -- no doubling
    refine ⟨?_, Or.inl rfl, ?_⟩
    · show (writeAt buf len str).take (len + str.length) = _
      rw [take_writeAt str (by omega)]
    · refine ⟨?_, show len + str.length < cap by omega⟩
      rw [length_writeAt str (by omega)]
      exact hbuf

/-- C9: under the precondition that the stored length plus the appended
length plus one fits in the capacity after at most one doubling (with the
initial 4096-character allocation on first use), `Append` leaves the buffer
holding exactly the previous contents followed by the appended characters,
and the capacity is unchanged or doubled once. -/
theorem C9_stringbuffer_append (b : StringBuffer) (str : Str) (hwf : b.WF)
    (hfit : b.m_length + str.length + 1 ≤ b.baseCapacity * 2) :
    (b.Append str).contents = b.contents ++ str ∧
    ((b.Append str).m_capacity = b.baseCapacity ∨
     (b.Append str).m_capacity = b.baseCapacity * 2) ∧
    (b.Append str).WF := by
  obtain ⟨obuf, cap, len⟩ := b
  cases obuf with
  | none =>
    obtain ⟨hc, hl⟩ := hwf
    dsimp at hc hl
    subst hc
    subst hl
    have h := appendTo_spec (List.replicate 4096 '\x00') 4096 0 str
      (List.length_replicate 4096 '\x00') (by omega) (by exact hfit)
    refine ⟨?_, h.2.1, h.2.2⟩
    rw [show (StringBuffer.mk none 0 0).contents = [] from rfl]
    rw [show (StringBuffer.mk none 0 0).Append str =
      appendTo (List.replicate 4096 '\x00') 4096 0 str from rfl]
    rw [h.1]
    simp
  | some bu =>
    obtain ⟨hc, hl⟩ := hwf
    dsimp at hc hl
    have h := appendTo_spec bu cap len str hc hl (by exact hfit)
    refine ⟨?_, h.2.1, h.2.2⟩
    rw [show (StringBuffer.mk (some bu) cap len).Append str =
      appendTo bu cap len str from rfl]
    rw [h.1]
    rfl

/-- Witness for C9: appending to a fresh buffer and then appending a string
that forces the single doubling. -/
theorem C9_witness :
    ((StringBuffer.mk none 0 0).Append "abc".data).contents = "abc".data ∧
    ((StringBuffer.mk (some (List.replicate 4 '\x00')) 4 3).Append "de".data).contents =
      (StringBuffer.mk (some (List.replicate 4 '\x00')) 4 3).contents ++ "de".data ∧
    ((StringBuffer.mk (some (List.replicate 4 '\x00')) 4 3).Append "de".data).m_capacity = 8 :=
  have h1 := C9_stringbuffer_append (StringBuffer.mk none 0 0) "abc".data
    (by constructor <;> rfl) (by decide)
  have h2 := C9_stringbuffer_append
    (StringBuffer.mk (some (List.replicate 4 '\x00')) 4 3) "de".data
    (by exact ⟨by decide, by decide⟩) (by decide)
  ⟨by rw [h1.1]; rfl,
   h2.1,
   by rcases h2.2.1 with h | h
      · exact absurd (h.symm.trans rfl) (by decide)
      · exact h.trans (by decide)⟩

end CoreConsole
